import Mathlib

/-!
Verification model of `trac/wiki/parser.py` (wiki structural markup parser).

Strings are modelled as `List Char`; Python `unicode` lines carry no
newline characters after `splitlines`.  Regular expressions that the source
compiles from fixed literals (`_processor_param_re`, `_startblock_re`,
`_processor_re`, `_private_helper_re`, the verbatim-masking pattern) are
translated into executable scanners with the exact semantics the Python
`re` engine gives those particular patterns (leftmost match, ordered
alternation, greedy/lazy repetition as analysed per pattern).

Curly braces are written with `\x7b` / `\x7d` escapes throughout.
-/

set_option maxHeartbeats 1000000

namespace TracWiki

/-- ASCII word characters: `\w` for patterns compiled without `re.UNICODE`
(all the parameter/processor patterns in the source). -/
def isWordChar (c : Char) : Bool :=
  c.isAlpha || c.isDigit || c = '_'

/-- ASCII whitespace: `\s` for patterns compiled without `re.UNICODE`. -/
def isSpaceChar (c : Char) : Bool :=
  c = ' ' || c = '\t' || c = '\n' || c = '\r' || c = '\x0b' || c = '\x0c'

/-- Whitespace recognised by Python 2 `unicode.strip()` / `unicode.split()`
(ASCII whitespace plus control/unicode space characters). -/
def isUniSpace (c : Char) : Bool :=
  isSpaceChar c || c = '\x1c' || c = '\x1d' || c = '\x1e' || c = '\x1f' ||
  c = '\x85' || c = '\xa0' || c = ' ' ||
  (' ' ≤ c && c ≤ ' ') || c = ' ' || c = ' ' ||
  c = ' ' || c = ' ' || c = '　'

/-- Python `u.strip()`. -/
def pstrip (s : List Char) : List Char :=
  ((s.dropWhile isUniSpace).reverse.dropWhile isUniSpace).reverse

/-- Helper for `splitWS`: the accumulator holds the current word,
reversed. -/
def splitWSAux : List Char → List Char → List (List Char)
  | acc, [] => if acc = [] then [] else [acc.reverse]
  | acc, c :: r =>
    if isUniSpace c then
      if acc = [] then splitWSAux [] r else acc.reverse :: splitWSAux [] r
    else splitWSAux (c :: acc) r

/-- Python `str.split()` with no separator: split on runs of whitespace,
discarding empty pieces. -/
def splitWS (s : List Char) : List (List Char) :=
  splitWSAux [] s

/-- Values held in a processor-parameter dictionary: Python strings or
Python booleans. -/
inductive PVal where
  | str : List Char → PVal
  | pb : Bool → PVal
deriving DecidableEq, Repr

/-- Python `dict(zip(keys, values))` lookup: the last binding of a key in
the pair list wins. -/
def plookup (ps : List (List Char × PVal)) (k : List Char) : Option PVal :=
  ps.foldl (fun acc p => if p.1 = k then some p.2 else acc) none

/-- The lazily quoted alternative `".*?"` (resp. `'.*?'`) of
`PROCESSOR_PARAM`'s value group, matched at the head of `r` with the
opening quote already consumed: the lazy repetition stops at the first
closing quote, and `.` cannot cross a newline.  Returns the full quoted
value (quotes included) and the remainder. -/
def matchQuoted (q : Char) (r : List Char) : Option (List Char × List Char) :=
  match r.dropWhile (fun c => c ≠ q) with
  | _ :: rest =>
    if '\n' ∈ r.takeWhile (fun c => c ≠ q) then none
    else some (q :: (r.takeWhile (fun c => c ≠ q) ++ [q]), rest)
  | [] => none

/-- The value alternation `".*?"|'.*?'|\w+` of `PROCESSOR_PARAM`, tried in
Python's alternation order at the head of the input. -/
def matchPVal (r : List Char) : Option (List Char × List Char) :=
  match r with
  | '\x22' :: r2 => matchQuoted '\x22' r2
  | '\x27' :: r2 => matchQuoted '\x27' r2
  | _ =>
    match r.takeWhile isWordChar with
    | [] => none
    | v => some (v, r.dropWhile isWordChar)

/-- One attempt of
`_processor_param_re = (?P<proc_pname>\w+)=(?P<proc_pval>".*?"|'.*?'|\w+)`
anchored at the head of `s`: the greedy `\w+` name must be followed by `=`
(backtracking the name cannot help since `=` is not a word character),
then the value alternation.  Returns `(name, raw value, remainder)`. -/
def matchKV (s : List Char) : Option (List Char × List Char × List Char) :=
  match s.takeWhile isWordChar with
  | [] => none
  | n =>
    match s.dropWhile isWordChar with
    | '=' :: r2 =>
      match matchPVal r2 with
      | some (v, rest) => some (n, v, rest)
      | none => none
    | _ => none

/-- The scanning pass of `re.split` with `_processor_param_re` over the
parameter string, with fuel (one unit per consumed character, so
`s.length` always suffices): returns the chunk before the first match and,
per match, `(name, raw value, following chunk)`. -/
def ppSplitF : Nat → List Char → List Char × List (List Char × List Char × List Char)
  | 0, s => (s, [])
  | _ + 1, [] => ([], [])
  | fuel + 1, c :: t =>
    match matchKV (c :: t) with
    | some (nm, v, rest) =>
      let r := ppSplitF fuel rest
      ([], (nm, v, r.1) :: r.2)
    | none =>
      let r := ppSplitF fuel t
      (c :: r.1, r.2)

/-- `re.split(_processor_param_re, s)` presented structurally. -/
def ppSplit (s : List Char) : List Char × List (List Char × List Char × List Char) :=
  ppSplitF s.length s

/-- The flag-token test `re.match(r'-?\w+$', flag)`. -/
def flagMatch (t : List Char) : Bool :=
  match t with
  | '-' :: r => decide (r ≠ []) && r.all isWordChar
  | r => decide (r ≠ []) && r.all isWordChar

/-- The body of the flag loop of `parse_processor_params`: a matching token
binds `True`, a matching `-`-prefixed token binds `False` under the name
with the prefix stripped, everything else (including a lone `-`) binds
nothing. -/
def flagBind (t : List Char) : Option (List Char × PVal) :=
  if flagMatch t then
    match t with
    | '-' :: r => if r.length + 1 > 1 then some (r, PVal.pb false) else none
    | _ => some (t, PVal.pb true)
  else none

/-- Flag bindings contributed by one inter-match chunk:
`for flag in flags.strip().split(): ...`. -/
def chunkFlags (chunk : List Char) : List (List Char × PVal) :=
  (splitWS (pstrip chunk)).filterMap flagBind

/-- Python `v[1:-1] if v[:1] + v[-1:] in ('""', "''") else v`. -/
def stripQuotes (v : List Char) : List Char :=
  if v.take 1 ++ v.drop (v.length - 1) = ['\x22', '\x22'] ∨
     v.take 1 ++ v.drop (v.length - 1) = ['\x27', '\x27'] then
    (v.drop 1).take (v.length - 2)
  else v

/-- `parse_processor_params` from `trac/wiki/parser.py`: split on the
key=value pattern, unquote the values, then append boolean bindings for
the flag tokens found in the inter-match chunks, and form the dictionary
(`plookup` gives its lookup semantics, last binding wins). -/
def parse_processor_params (s : List Char) : List (List Char × PVal) :=
  let r := ppSplit s
  (r.2.map (fun m => (m.1, PVal.str (stripQuotes m.2.1)))) ++
    ((r.1 :: r.2.map (fun m => m.2.2)).map chunkFlags).flatten

-- ## The document model

/-- `STARTBLOCK = "\x7b\x7b\x7b"`. -/
def STARTBLOCK : List Char := ['\x7b', '\x7b', '\x7b']

/-- `ENDBLOCK = "\x7d\x7d\x7d"`. -/
def ENDBLOCK : List Char := ['\x7d', '\x7d', '\x7d']

/-- Python's `sub in line` substring test. -/
def containsSub (pat : List Char) : List Char → Bool
  | [] => pat.isPrefixOf []
  | c :: t => pat.isPrefixOf (c :: t) || containsSub pat t

/-- Python's `line.find(sub)` for the case where the substring occurs
(`line.find(STARTBLOCK)` is only evaluated on lines matched by
`_startblock_re`); on absence it returns the line length instead of -1. -/
def findSubIdx (pat : List Char) : List Char → Nat
  | [] => 0
  | c :: t => if pat.isPrefixOf (c :: t) then 0 else findSubIdx pat t + 1

/-- First character of a processor name:
`[\w+-]` from `PROCESSOR = (\s*)#\!([\w+-][\w plus comma minus dot slash]*)`. -/
def isProcFirst (c : Char) : Bool :=
  isWordChar c || c = '+' || c = '-'

/-- Remaining characters of a processor name: `[\w plus-to-slash]`, where the class range `+` .. `/` is a
character range covering `+`, `,`, `-`, `.` and `/`. -/
def isProcRest (c : Char) : Bool :=
  isWordChar c || c = '+' || c = ',' || c = '-' || c = '.' || c = '/'

/-- `_processor_re.match(s)` with `PROCESSOR = (\s*)#\!([\w+-][\w plus comma minus dot slash]*)`:
returns the name (group 2) and the remainder of the line after
`match.end()`. -/
def processorMatch (s : List Char) : Option (List Char × List Char) :=
  match s.dropWhile isSpaceChar with
  | '#' :: '!' :: r2 =>
    match r2 with
    | c :: r3 =>
      if isProcFirst c then
        some (c :: r3.takeWhile isProcRest, r3.dropWhile isProcRest)
      else none
    | [] => none
  | _ => none

/-- `_startblock_re.match(line)` with pattern
`\s*\x7b\x7b\x7b(?:(\s*)#\!([\w+-][\w plus comma minus dot slash]*)|\s*$)`:
`none` when the line does not open a block, `some none` for a bare
delimiter line, `some (some (name, rest))` when an inline processor marker
follows (with `rest` the line remainder after the name, feeding the
parameter parser). -/
def startblockMatch (s : List Char) : Option (Option (List Char × List Char)) :=
  match s.dropWhile isSpaceChar with
  | c1 :: c2 :: c3 :: r2 =>
    if c1 = '\x7b' ∧ c2 = '\x7b' ∧ c3 = '\x7b' then
      match processorMatch r2 with
      | some nr => some (some nr)
      | none => if r2.all isSpaceChar then some none else none
    else none
  | _ => none

/-- Wiki DOM nodes.  `block` carries the `WikiBlock` attributes
`(i, j, name, params, start, end, comment, nodes)`; `inline` and `blank`
are the `WikiInline` / `WikiBlankLine` leaves produced by line
classification. -/
inductive WikiNode where
  | block : Nat → Nat → List Char → List (List Char × PVal) → Nat → Nat →
      List Char → List WikiNode → WikiNode
  | inline : Nat → Nat → WikiNode
  | blank : Nat → Nat → WikiNode

/-- Node attribute `i` (line index). -/
def WikiNode.i : WikiNode → Nat
  | .block i _ _ _ _ _ _ _ => i
  | .inline i _ => i
  | .blank i _ => i

/-- Node attribute `j` (start column). -/
def WikiNode.j : WikiNode → Nat
  | .block _ j _ _ _ _ _ _ => j
  | .inline _ j => j
  | .blank _ j => j

/-- Block attribute `start` (first content line); 0 on leaves. -/
def WikiNode.start : WikiNode → Nat
  | .block _ _ _ _ s _ _ _ => s
  | _ => 0

/-- Block attribute `end` (line of the closing delimiter, exclusive end of
content); 0 on leaves. -/
def WikiNode.end_ : WikiNode → Nat
  | .block _ _ _ _ _ e _ _ => e
  | _ => 0

/-- Block attribute `name` (directive name, empty when absent). -/
def WikiNode.name : WikiNode → List Char
  | .block _ _ nm _ _ _ _ _ => nm
  | _ => []

/-- Block attribute `params`. -/
def WikiNode.params : WikiNode → List (List Char × PVal)
  | .block _ _ _ ps _ _ _ _ => ps
  | _ => []

/-- Block attribute `comment` (trailing text after the closing
delimiter). -/
def WikiNode.comment : WikiNode → List Char
  | .block _ _ _ _ _ _ cm _ => cm
  | _ => []

/-- Child nodes. -/
def WikiNode.nodes : WikiNode → List WikiNode
  | .block _ _ _ _ _ _ _ ns => ns
  | _ => []

/-- A scope for `_detect_nested_blocks`: line range `[start, end)` and
column offset `j` (the document itself is `⟨0, number_of_lines, 0⟩`). -/
structure Scope where
  start : Nat
  end_ : Nat
  j : Nat

/-- A block that has been opened but not yet closed during the nesting
scan (a suffix of Python's `ancestors` stack above the scope):
`(i, j, name, params, start)` as in `WikiBlock.__init__` plus the children
accumulated so far. -/
structure OpenBlock where
  bi : Nat
  bj : Nat
  bname : List Char
  bparams : List (List Char × PVal)
  bstart : Nat
  bchildren : List WikiNode

/-- State of the nesting scan: the stack of open blocks (innermost first,
excluding the enclosing scope), the children collected for the scope
itself, and the Python local variable `j` (column of the most recently
matched opening delimiter), read back by the deferred directive lookup
when `scope.j` is non-zero. -/
structure DetectState where
  stack : List OpenBlock
  rootChildren : List WikiNode
  lastJ : Nat

/-- Append a finished node to the innermost enclosing scope (the next
stack entry, or the scope itself). -/
def pushChild (node : WikiNode) (rest : List OpenBlock) (st : DetectState) :
    DetectState :=
  match rest with
  | [] => { st with stack := [], rootChildren := st.rootChildren ++ [node] }
  | p :: ps =>
    { st with stack := { p with bchildren := p.bchildren ++ [node] } :: ps }

/-- The deferred directive lookup performed when a block with no name and
at least one content line is closed at line `i`: inspect the block's first
content line (`wikidoc.lines[block.start]`, sliced by the Python local
`j` — the column of the most recent opening delimiter — when `scope.j` is
non-zero) for a processor marker, and return the updated
`(start, name, params)`. -/
def deferredSBN (lines : List (List Char)) (scope : Scope) (lastJ : Nat)
    (b : OpenBlock) (i : Nat) : Nat × List Char × List (List Char × PVal) :=
  if b.bname = [] ∧ b.bstart < i then
    match processorMatch
        (if scope.j ≠ 0 then (lines.getD b.bstart []).drop lastJ
         else lines.getD b.bstart []) with
    | some nr => (b.bstart + 1, nr.1, parse_processor_params nr.2)
    | none => (b.bstart, b.bname, b.bparams)
  else (b.bstart, b.bname, b.bparams)

/-- The finished node for a block popped at closing line `i`: `end` is
`i`, the trailing text after the closing token becomes the comment, and
the deferred directive lookup may update start/name/params. -/
def closedNode (lines : List (List Char)) (scope : Scope) (lastJ : Nat)
    (b : OpenBlock) (i : Nat) (ls : List Char) : WikiNode :=
  WikiNode.block b.bi b.bj
    (deferredSBN lines scope lastJ b i).2.1
    (deferredSBN lines scope lastJ b i).2.2
    (deferredSBN lines scope lastJ b i).1 i
    (if ls ≠ ENDBLOCK then ls.drop 3 else []) b.bchildren

/-- Closing-delimiter handling of `_detect_nested_blocks` (a stray closer
with only the scope on the stack is ignored): pop the innermost block, set
its `end` to the current line, record a trailing comment, and run the
deferred directive lookup. -/
def closeTop (lines : List (List Char)) (scope : Scope) (st : DetectState)
    (i : Nat) (ls : List Char) : DetectState :=
  match st.stack with
  | [] => st
  | b :: rest =>
    pushChild (closedNode lines scope st.lastJ b i ls) rest st

/-- One line of the `_detect_nested_blocks` scan. -/
def detectStep (lines : List (List Char)) (scope : Scope) (st : DetectState)
    (i : Nat) : DetectState :=
  let line := (lines.getD i []).drop scope.j
  if containsSub ENDBLOCK line then
    let ls := pstrip line
    if ENDBLOCK.isPrefixOf ls then closeTop lines scope st i ls else st
  else
    match startblockMatch line with
    | some po =>
      let np := match po with
        | some nr => (nr.1, parse_processor_params nr.2)
        | none => ([], [])
      let j := findSubIdx STARTBLOCK line + scope.j
      { stack := ⟨i, j, np.1, np.2, i + 1, []⟩ :: st.stack,
        rootChildren := st.rootChildren, lastJ := j }
    | none => st

/-- Iterate `detectStep` over `n` consecutive lines starting at `i`
(`for i in xrange(scope.start, scope.end)`). -/
def detectFrom (lines : List (List Char)) (scope : Scope) :
    Nat → Nat → DetectState → DetectState
  | 0, _, st => st
  | n + 1, i, st => detectFrom lines scope n (i + 1) (detectStep lines scope st i)

/-- The node built for a block force-closed at scope end
(`block.end = scope.end`; name, params, start and comment are left as they
were). -/
def forceClosed (scopeEnd : Nat) (b : OpenBlock) : WikiNode :=
  WikiNode.block b.bi b.bj b.bname b.bparams b.bstart scopeEnd [] b.bchildren

/-- Helper for `closeUnfinished`: `cur` is the innermost block still to be
force-closed. -/
def closeUnfinishedGo (scopeEnd : Nat) (cur : OpenBlock) :
    List OpenBlock → List WikiNode → List WikiNode
  | [], root => root ++ [forceClosed scopeEnd cur]
  | p :: ps, root =>
    closeUnfinishedGo scopeEnd
      { p with bchildren := p.bchildren ++ [forceClosed scopeEnd cur] } ps root

/-- The `while len(ancestors) > 1` loop: force-close every block still
open at scope end, setting its `end` to the scope's end. -/
def closeUnfinished (scopeEnd : Nat) : List OpenBlock → List WikiNode → List WikiNode
  | [], root => root
  | b :: rest, root => closeUnfinishedGo scopeEnd b rest root

/-- `WikiParser._detect_nested_blocks`: scan the scope's line range and
return the tree of nested blocks rooted in the scope (the children that
the Python code appends to `scope.nodes`). -/
def detect_nested_blocks (lines : List (List Char)) (scope : Scope) :
    List WikiNode :=
  let st := detectFrom lines scope (scope.end_ - scope.start) scope.start ⟨[], [], 0⟩
  closeUnfinished scope.end_ st.stack st.rootChildren

-- ## Document construction

/-- Characters on which Python 2 `unicode.splitlines` breaks, after the
`[\v\f]` pre-normalization has removed `\x0b`/`\x0c`. -/
def isLineBreak (c : Char) : Bool :=
  c = '\n' || c = '\r' || c = '\x1c' || c = '\x1d' || c = '\x1e' ||
  c = '\x85' || c = ' ' || c = ' '

/-- `re.sub(WikiParser._normalize_re, ' ', text)` with
`_normalize_re = [\v\f]`. -/
def normalizeText (s : List Char) : List Char :=
  s.map (fun c => if c = '\x0b' ∨ c = '\x0c' then ' ' else c)

/-- Python `unicode.splitlines` (accumulator holds the current line,
reversed; `\r\n` counts as a single break; no trailing empty line). -/
def splitlinesAux : List Char → List Char → List (List Char)
  | acc, [] => if acc = [] then [] else [acc.reverse]
  | acc, '\r' :: '\n' :: r => acc.reverse :: splitlinesAux [] r
  | acc, c :: r =>
    if isLineBreak c then acc.reverse :: splitlinesAux [] r
    else splitlinesAux (c :: acc) r

/-- Python `text.splitlines()`. -/
def splitlines (s : List Char) : List (List Char) :=
  splitlinesAux [] s

/-- The line array of `WikiDocument(text)`. -/
def documentLines (text : List Char) : List (List Char) :=
  splitlines (normalizeText text)

/-- The root scope of a document: `start == 0`, `end == len(lines)`,
column 0. -/
def documentScope (lines : List (List Char)) : Scope :=
  ⟨0, lines.length, 0⟩

-- ## Line classification of the nesting scan

/-- The line as seen by the nesting scan: `line[scope.j:]` (Python skips
the slice when `scope.j` is 0; slicing by 0 is the identity). -/
def offsetLine (lines : List (List Char)) (scope : Scope) (i : Nat) : List Char :=
  (lines.getD i []).drop scope.j

/-- What `_detect_nested_blocks` does with a line, independently of the
stack: `closer` if the line contains the closing token and, stripped,
starts with it; `opener` if it has no closing token and matches
`_startblock_re`; `plain` otherwise. -/
inductive LAct where
  | opener : LAct
  | closer : LAct
  | plain : LAct
deriving DecidableEq

/-- Classify line `i` of the scope. -/
def lineAct (lines : List (List Char)) (scope : Scope) (i : Nat) : LAct :=
  let line := offsetLine lines scope i
  if containsSub ENDBLOCK line then
    if ENDBLOCK.isPrefixOf (pstrip line) then .closer else .plain
  else
    match startblockMatch line with
    | some _ => .opener
    | none => .plain

/-- Number of opener lines among indices `[i, i + n)`. -/
def opensIn (lines : List (List Char)) (scope : Scope) : Nat → Nat → Nat
  | _, 0 => 0
  | i, n + 1 =>
    (if lineAct lines scope i = .opener then 1 else 0) + opensIn lines scope (i + 1) n

/-- Number of closer lines among indices `[i, i + n)`. -/
def closesIn (lines : List (List Char)) (scope : Scope) : Nat → Nat → Nat
  | _, 0 => 0
  | i, n + 1 =>
    (if lineAct lines scope i = .closer then 1 else 0) + closesIn lines scope (i + 1) n

/-- The input has exactly `N` matched opening/closing delimiter pairs:
every prefix has at least as many openers as closers (each closer matches
an open block) and the totals agree (each opener is eventually closed). -/
def matchedPairs (lines : List (List Char)) (scope : Scope) (N : Nat) : Prop :=
  (∀ k, k ≤ scope.end_ - scope.start →
    closesIn lines scope scope.start k ≤ opensIn lines scope scope.start k) ∧
  opensIn lines scope scope.start (scope.end_ - scope.start) = N ∧
  closesIn lines scope scope.start (scope.end_ - scope.start) = N

-- ## Counting and flattening block nodes

/-- Number of block nodes in a tree. -/
def WikiNode.blockCount : WikiNode → Nat
  | .block _ _ _ _ _ _ _ ns => 1 + (ns.attach.map (fun x => x.1.blockCount)).sum
  | _ => 0
termination_by n => sizeOf n
decreasing_by
  have := List.sizeOf_lt_of_mem x.2
  simp only [WikiNode.block.sizeOf_spec]
  omega

/-- Number of block nodes in a forest. -/
def blockCountL (ns : List WikiNode) : Nat :=
  (ns.map WikiNode.blockCount).sum

/-- All block nodes of a tree, the root included. -/
def WikiNode.blockList : WikiNode → List WikiNode
  | .block i j nm ps s e cm ns =>
    WikiNode.block i j nm ps s e cm ns ::
      (ns.attach.map (fun x => x.1.blockList)).flatten
  | _ => []
termination_by n => sizeOf n
decreasing_by
  have := List.sizeOf_lt_of_mem x.2
  simp only [WikiNode.block.sizeOf_spec]
  omega

/-- All block nodes of a forest. -/
def blockListL (ns : List WikiNode) : List WikiNode :=
  (ns.map WikiNode.blockList).flatten

/-- Total number of block nodes accounted for by a scan state: finished
blocks in the scope's children plus, per open block, itself and its
finished children. -/
def stackBlockCount (st : DetectState) : Nat :=
  blockCountL st.rootChildren +
    (st.stack.map (fun b => 1 + blockCountL b.bchildren)).sum

/-- All finished block nodes of a scan state. -/
def stateBlocks (st : DetectState) : List WikiNode :=
  blockListL st.rootChildren ++
    (st.stack.map (fun b => blockListL b.bchildren)).flatten

/-- Invariant of the open-block stack at line `i`: every open block was
opened at an earlier line and its content starts on the following line. -/
def framesOK (i : Nat) (stack : List OpenBlock) : Prop :=
  ∀ b ∈ stack, b.bstart = b.bi + 1 ∧ b.bi < i

/-- Invariant of a finished block node before line `bound`: its positions
are ordered and it was closed by a closer line. -/
def finishedOK (lines : List (List Char)) (scope : Scope) (bound : Nat)
    (nd : WikiNode) : Prop :=
  nd.start ≤ nd.end_ ∧ nd.i < nd.end_ ∧ nd.end_ < bound ∧
    lineAct lines scope nd.end_ = .closer

-- ## Pattern compiler (`_collect_partial_patterns` and the combined matcher)

/-- One `(pattern, builder)` contribution from a provider (the source also
accepts a builder carrying its pattern as an attribute, which is the same
data).  `regexp` is the contributed pattern text; `compilesOK` models
whether `re.compile(regexp)` succeeds (the Python regex compiler is
external to this model); `matcher` models the compiled pattern's
match-at-position behaviour inside the combined alternation (`none` = no
match, `some payload` = a match whose data is passed to the builder);
`builder` is the handler registered in the dispatch table. -/
structure Contribution (β : Type) where
  regexp : List Char
  compilesOK : Bool
  matcher : List Char → Nat → Option Nat
  builder : β

/-- The tail `P<_i\d+>` of the reserved-name pattern, matched at the head
of the input. -/
def reservedCore : List Char → Bool
  | 'P' :: '<' :: '_' :: 'i' :: r =>
    decide (r.takeWhile Char.isDigit ≠ []) &&
      decide ((r.dropWhile Char.isDigit).head? = some '>')
  | _ => false

/-- `_private_helper_re.findall(regexp)` is nonempty: some position of the
pattern text matches `\(?P<_i\d+>` (the opening parenthesis is optional in
that pattern). -/
def hasReservedGroup : List Char → Bool
  | [] => false
  | c :: t => reservedCore (c :: t) || (decide (c = '(') && reservedCore t) ||
      hasReservedGroup t

/-- A contribution survives collection if its pattern does not use the
reserved `_i<digits>` group namespace and compiles on its own. -/
def keepContribution {β : Type} (c : Contribution β) : Bool :=
  !(hasReservedGroup c.regexp) && c.compilesOK

/-- The inner loop of `_collect_partial_patterns` for one provider:
reserved-name or non-compiling patterns are skipped (with a logged
warning, not modelled); every other contribution is wrapped in the private
group `_i<counter>` (modelled by the numeric key) and registered.  Returns
the registrations and the next counter value. -/
def collectProvider {β : Type} :
    List (Contribution β) → Nat → List (Nat × Contribution β) × Nat
  | [], i => ([], i)
  | c :: rest, i =>
    if hasReservedGroup c.regexp then collectProvider rest i
    else if !c.compilesOK then collectProvider rest i
    else
      let r := collectProvider rest (i + 1)
      ((i, c) :: r.1, r.2)

/-- The outer loop of `_collect_partial_patterns` over the ordered
provider list. -/
def collectGo {β : Type} :
    List (List (Contribution β)) → Nat → List (Nat × Contribution β)
  | [], _ => []
  | cs :: rest, i =>
    let r := collectProvider cs i
    r.1 ++ collectGo rest r.2

/-- `WikiParser._collect_partial_patterns`: the ordered registration list,
serving as both the alternation order of the combined matcher (`regexps`)
and the dispatch table (`handlers`). -/
def collectContribPatterns {β : Type} (provs : List (List (Contribution β))) :
    List (Nat × Contribution β) :=
  collectGo provs 0

/-- Matching the combined pattern `(?:p0|p1|...)` at a position: Python's
alternation tries the alternatives in registration order and commits to
the first that matches there. -/
def alternationMatch {β : Type} (regs : List (Nat × Contribution β))
    (line : List Char) (pos : Nat) : Option (Nat × Nat) :=
  match regs with
  | [] => none
  | (k, c) :: rest =>
    match c.matcher line pos with
    | some m => some (k, m)
    | none => alternationMatch rest line pos

/-- Dispatch-table lookup (`handlers.get(name)` keyed by the private group
of the alternative that matched). -/
def lookupKey {β : Type} (regs : List (Nat × Contribution β)) (k : Nat) :
    Option (Contribution β) :=
  (regs.find? (fun p => p.1 = k)).map (fun p => p.2)

/-- `build_node` of `_parse_between_blocks`: from the full match, find the
private group that fired and return its registered builder. -/
def build_node {β : Type} (regs : List (Nat × Contribution β))
    (m : Option (Nat × Nat)) : Option β :=
  match m with
  | some km => (lookupKey regs km.1).map (fun c => c.builder)
  | none => none

-- ## Verbatim masking (`make_verbatime_safe`)

/-- Greedy scan of `(?:[^\x7d]|\x7d[^\x7d]|\x7d\x7d[^\x7d])+`: consume
units until three closing braces (or a brace run reaching the end of the
line) stop it.  Returns the consumed content and the remainder. -/
def unitScan : List Char → List Char × List Char
  | '\x7d' :: '\x7d' :: '\x7d' :: r => ([], '\x7d' :: '\x7d' :: '\x7d' :: r)
  | '\x7d' :: '\x7d' :: [] => ([], ['\x7d', '\x7d'])
  | '\x7d' :: '\x7d' :: c :: r =>
    let u := unitScan r
    ('\x7d' :: '\x7d' :: c :: u.1, u.2)
  | '\x7d' :: [] => ([], ['\x7d'])
  | '\x7d' :: c :: r =>
    let u := unitScan r
    ('\x7d' :: c :: u.1, u.2)
  | [] => ([], [])
  | c :: r =>
    let u := unitScan r
    (c :: u.1, u.2)

/-- Match length at the head of `s` for the verbatim-masking pattern
`\x60[^\x60]+\x60|\x7b\x7b\x7b(?:[^\x7d]|\x7d[^\x7d]|\x7d\x7d[^\x7d])+\x7d\x7d\x7d`. -/
def vbMatch (s : List Char) : Option Nat :=
  match s with
  | '\x60' :: r =>
    let run := r.takeWhile (fun c => c ≠ '\x60')
    match r.dropWhile (fun c => c ≠ '\x60') with
    | _ :: _ => if run = [] then none else some (run.length + 2)
    | [] => none
  | '\x7b' :: '\x7b' :: '\x7b' :: r =>
    let u := unitScan r
    if u.1 = [] then none
    else if ENDBLOCK.isPrefixOf u.2 then some (3 + u.1.length + 3)
    else none
  | _ => none

/-- Fuel-driven `re.sub` of the verbatim-masking pattern, replacing each
match by `x` characters of the same length. -/
def makeVerbatimeSafeF : Nat → List Char → List Char
  | 0, s => s
  | _ + 1, [] => []
  | fuel + 1, c :: t =>
    match vbMatch (c :: t) with
    | some n =>
      List.replicate n 'x' ++ makeVerbatimeSafeF fuel ((c :: t).drop n)
    | none => c :: makeVerbatimeSafeF fuel t

/-- `WikiParser.make_verbatime_safe` (the misspelling is the source's). -/
def make_verbatime_safe (line : List Char) : List Char :=
  makeVerbatimeSafeF line.length line

-- ## Line classifier / node builder (`_parse_between_blocks`) and `parse`

/-- Builders as the core sees them: a function of the document lines, the
line index and the match payload, producing a node (the source also passes
the ancestor scope list, here fixed to the document scope by
`vertical_parsing`). -/
def WikiBuilder : Type := List (List Char) → Nat → Nat → WikiNode

/-- The classification of one uncovered line: try the raw composed
matcher, then the verbatim-sensitive matcher on the masked line, then fall
back to indentation/blank classification. -/
def classifyLine (lines : List (List Char)) (scope : Scope)
    (raw sens : List (Nat × Contribution WikiBuilder)) (i : Nat) : WikiNode :=
  let line := lines.getD i []
  if line ≠ [] then
    match build_node raw (alternationMatch raw line scope.j) with
    | some b => b lines i ((alternationMatch raw line scope.j).getD (0, 0)).2
    | none =>
      let safe := make_verbatime_safe line
      match build_node sens (alternationMatch sens safe scope.j) with
      | some b => b lines i ((alternationMatch sens safe scope.j).getD (0, 0)).2
      | none =>
        let j := scope.j + ((line.drop scope.j).takeWhile isSpaceChar).length
        if j < line.length then WikiNode.inline i j else WikiNode.blank i j
  else WikiNode.blank i scope.j

/-- The merge loop of `_parse_between_blocks`: keep the blocks found by
the nesting scan (skipping past their line ranges) and classify every
other line.  Fuel-driven; the fuel chosen in `parse_between_blocks` covers
every loop iteration on detector-produced block lists. -/
def pbbGo (lines : List (List Char)) (scope : Scope)
    (raw sens : List (Nat × Contribution WikiBuilder)) :
    Nat → Nat → List WikiNode → List WikiNode → List WikiNode
  | 0, _, _, acc => acc
  | fuel + 1, i, olds, acc =>
    if i < scope.end_ then
      match olds with
      | old :: rest =>
        if i = old.i then
          pbbGo lines scope raw sens fuel (old.end_ + 1) rest (acc ++ [old])
        else
          pbbGo lines scope raw sens fuel (i + 1) (old :: rest)
            (acc ++ [classifyLine lines scope raw sens i])
      | [] =>
        pbbGo lines scope raw sens fuel (i + 1) []
          (acc ++ [classifyLine lines scope raw sens i])
    else acc

/-- `WikiParser._parse_between_blocks` restricted to the single scope that
`vertical_parsing` passes: returns the scope's new `nodes`. -/
def parse_between_blocks (lines : List (List Char)) (scope : Scope)
    (raw sens : List (Nat × Contribution WikiBuilder))
    (oldnodes : List WikiNode) : List WikiNode :=
  pbbGo lines scope raw sens
    ((scope.end_ - scope.start) + oldnodes.length + 1) scope.start oldnodes []

/-- The provider sets backing the parser's two extension points, fixed for
the parser instance. -/
structure WikiProviders where
  rawProviders : List (List (Contribution WikiBuilder))
  sensProviders : List (List (Contribution WikiBuilder))

/-- The lazily built compiled-matcher caches (`_block_raw_re` /
`_block_raw_handlers` and `_block_sensitive_re` /
`_block_sensitive_handlers`, `None` until first use). -/
structure ParserCache where
  raw : Option (List (Nat × Contribution WikiBuilder))
  sens : Option (List (Nat × Contribution WikiBuilder))

/-- The `block_raw_re` property: build the combined matcher and dispatch
table on first use, then serve the cache. -/
def block_raw_re (P : WikiProviders) (c : ParserCache) :
    List (Nat × Contribution WikiBuilder) × ParserCache :=
  match c.raw with
  | some r => (r, c)
  | none =>
    let r := collectContribPatterns P.rawProviders
    (r, { c with raw := some r })

/-- The `block_sensitive_re` property. -/
def block_sensitive_re (P : WikiProviders) (c : ParserCache) :
    List (Nat × Contribution WikiBuilder) × ParserCache :=
  match c.sens with
  | some r => (r, c)
  | none =>
    let r := collectContribPatterns P.sensProviders
    (r, { c with sens := some r })

/-- `WikiParser.parse`: build the document, detect nested blocks, then
classify the lines between blocks (`vertical_parsing`).  Returns the root
document node and the parser state after the call. -/
def parse (P : WikiProviders) (c : ParserCache) (text : List Char) :
    WikiNode × ParserCache :=
  let lines := documentLines text
  let scope := documentScope lines
  let blocks := detect_nested_blocks lines scope
  let rc := block_raw_re P c
  let sc := block_sensitive_re P rc.2
  let ns := parse_between_blocks lines scope rc.1 sc.1 blocks
  (WikiNode.block 0 0 [] [] 0 lines.length [] ns, sc.2)

-- ## Token families for the parameter-parser claims

/-- The token forms named by the specification of the parameter parser:
`name="v"` / `name='v'` (`kvq`), `name=bareword` (`kvb`), a standalone
bareword flag (`flg`), a `-`-prefixed flag (`neg`), and a lone `-`
(`dash`). -/
inductive PTok where
  | kvq : List Char → Char → List Char → PTok
  | kvb : List Char → List Char → PTok
  | flg : List Char → PTok
  | neg : List Char → PTok
  | dash : PTok
deriving DecidableEq

/-- The concrete text of a token. -/
def PTok.render : PTok → List Char
  | .kvq n q v => n ++ '=' :: q :: (v ++ [q])
  | .kvb n v => n ++ '=' :: v
  | .flg n => n
  | .neg n => '-' :: n
  | .dash => ['-']

/-- A parameter string made of whitespace-separated tokens (single spaces
here). -/
def renderToks : List PTok → List Char
  | [] => []
  | [t] => t.render
  | t :: ts => t.render ++ ' ' :: renderToks ts

/-- A legal parameter name: nonempty, word characters only. -/
def validName (n : List Char) : Prop :=
  n ≠ [] ∧ ∀ x ∈ n, isWordChar x

/-- Well-formedness of a token: names and barewords are word-only and
nonempty, quotes are one of the two quote characters, and a quoted value
contains neither its own quote character nor a newline. -/
def PTok.wf : PTok → Prop
  | .kvq n q v => validName n ∧ (q = '\x22' ∨ q = '\x27') ∧
      (∀ c ∈ v, c ≠ q ∧ c ≠ '\n')
  | .kvb n v => validName n ∧ validName v
  | .flg n => validName n
  | .neg n => validName n
  | .dash => True

/-- The key=value bindings of a token list, in source order. -/
def kvPairs : List PTok → List (List Char × PVal)
  | [] => []
  | .kvq n _ v :: ts => (n, PVal.str v) :: kvPairs ts
  | .kvb n v :: ts => (n, PVal.str v) :: kvPairs ts
  | _ :: ts => kvPairs ts

/-- The flag bindings of a token list, in source order. -/
def flagPairs : List PTok → List (List Char × PVal)
  | [] => []
  | .flg n :: ts => (n, PVal.pb true) :: flagPairs ts
  | .neg n :: ts => (n, PVal.pb false) :: flagPairs ts
  | _ :: ts => flagPairs ts

/-- The name a token binds, if any (a lone `-` binds nothing). -/
def PTok.boundName : PTok → Option (List Char)
  | .kvq n _ _ => some n
  | .kvb n _ => some n
  | .flg n => some n
  | .neg n => some n
  | .dash => none

-- ## The specification's shape of an opening line (for the opening-test claim)

/-- The inline processor marker `#!name ...` (optionally preceded by
whitespace, as the `(\s*)` group allows): `#!`, a name character, then
anything. -/
def specInlineMarker (rest : List Char) : Prop :=
  ∃ ws2 c tail, (∀ x ∈ ws2, isSpaceChar x) ∧ isProcFirst c ∧
    rest = ws2 ++ '#' :: '!' :: c :: tail

/-- The specified shape of a line that opens a block: optional whitespace,
the opening delimiter, then either an inline processor marker or nothing
but whitespace to the end of the line. -/
def specOpeningLineShape (s : List Char) : Prop :=
  ∃ ws rest, (∀ x ∈ ws, isSpaceChar x) ∧
    s = ws ++ '\x7b' :: '\x7b' :: '\x7b' :: rest ∧
    ((∀ x ∈ rest, isSpaceChar x) ∨ specInlineMarker rest)

/-- Column of the opening delimiter found on an opener line
(`line.find(STARTBLOCK) + scope.j`). -/
def openerJ (lines : List (List Char)) (scope : Scope) (i : Nat) : Nat :=
  findSubIdx STARTBLOCK (offsetLine lines scope i) + scope.j

/-- Directive name and parameters taken from an opener line (empty when
the opening delimiter carries no inline processor marker). -/
def openerNP (lines : List (List Char)) (scope : Scope) (i : Nat) :
    List Char × List (List Char × PVal) :=
  match startblockMatch (offsetLine lines scope i) with
  | some (some nr) => (nr.1, parse_processor_params nr.2)
  | _ => ([], [])

-- ## The split of a rendered token list, described structurally

/-- The chunk of text `re.split` leaves before the first key=value match
of a rendered token list: the leading run of non-key=value tokens joined
by the separating spaces, including the space before the first key=value
token when one follows. -/
def ppPre : List PTok → List Char
  | [] => []
  | t :: ts =>
    match t with
    | .kvq _ _ _ => []
    | .kvb _ _ => []
    | _ => t.render ++ match ts with
      | [] => []
      | _ :: _ => ' ' :: ppPre ts

/-- The chunk following a key=value match inside a rendered token list:
empty at the end of the list, otherwise the separating space and the
pre-chunk of the remaining tokens. -/
def chunkAfter (ts : List PTok) : List Char :=
  match ts with
  | [] => []
  | _ :: _ => ' ' :: ppPre ts

/-- The `(name, raw value, following chunk)` triples `re.split` produces
on a rendered token list, one per key=value token. -/
def ppMs : List PTok → List (List Char × List Char × List Char)
  | [] => []
  | t :: ts =>
    match t with
    | .kvq n q v => (n, q :: (v ++ [q]), chunkAfter ts) :: ppMs ts
    | .kvb n v => (n, v, chunkAfter ts) :: ppMs ts
    | _ => ppMs ts

instance validNameDec (n : List Char) : Decidable (validName n) :=
  inferInstanceAs (Decidable (n ≠ [] ∧ ∀ x ∈ n, isWordChar x))

instance PTokWfDec : (t : PTok) → Decidable t.wf
  | .kvq n q v => inferInstanceAs (Decidable (validName n ∧
      (q = '\x22' ∨ q = '\x27') ∧ (∀ c ∈ v, c ≠ q ∧ c ≠ '\n')))
  | .kvb n v => inferInstanceAs (Decidable (validName n ∧ validName v))
  | .flg n => inferInstanceAs (Decidable (validName n))
  | .neg n => inferInstanceAs (Decidable (validName n))
  | .dash => .isTrue trivial

-- # Theorems

-- Utility lemmas about takeWhile/dropWhile used by the scanner proofs.

theorem dropWhile_head_false {p : Char → Bool} {l : List Char} {c : Char}
    {t : List Char} (h : l.dropWhile p = c :: t) : p c = false := by
  induction l with
  | nil => simp [List.dropWhile] at h
  | cons a l ih =>
    rw [List.dropWhile] at h
    by_cases hp : p a
    · rw [hp] at h; simp at h; exact ih h
    · simp only [Bool.not_eq_true] at hp
      rw [hp] at h; simp at h
      rw [← h.1]; exact hp

theorem takeWhile_all {p : Char → Bool} {l : List Char} :
    ∀ x ∈ l.takeWhile p, p x := by
  induction l with
  | nil => simp [List.takeWhile]
  | cons a l ih =>
    rw [List.takeWhile]
    by_cases hp : p a
    · rw [hp]; intro x hx
      rcases List.mem_cons.mp hx with h | h
      · rw [h]; exact hp
      · exact ih x h
    · simp only [Bool.not_eq_true] at hp
      rw [hp]; simp

theorem takeWhile_append_all {p : Char → Bool} {l r : List Char}
    (h : ∀ x ∈ l, p x) : (l ++ r).takeWhile p = l ++ r.takeWhile p := by
  induction l with
  | nil => simp
  | cons a l ih =>
    simp only [List.cons_append, List.takeWhile]
    rw [h a (by simp)]
    simp only [List.cons.injEq, true_and]
    exact ih (fun x hx => h x (by simp [hx]))

theorem dropWhile_append_all {p : Char → Bool} {l r : List Char}
    (h : ∀ x ∈ l, p x) : (l ++ r).dropWhile p = r.dropWhile p := by
  induction l with
  | nil => simp
  | cons a l ih =>
    simp only [List.cons_append, List.dropWhile]
    rw [h a (by simp)]
    exact ih (fun x hx => h x (by simp [hx]))

theorem takeWhile_cons_false {p : Char → Bool} {c : Char} {r : List Char}
    (h : p c = false) : (c :: r).takeWhile p = [] := by
  rw [List.takeWhile, h]

theorem dropWhile_cons_false {p : Char → Bool} {c : Char} {r : List Char}
    (h : p c = false) : (c :: r).dropWhile p = c :: r := by
  rw [List.dropWhile, h]

theorem takeWhile_eq_self_of_all {p : Char → Bool} {l : List Char}
    (h : ∀ x ∈ l, p x) : l.takeWhile p = l := by
  have := takeWhile_append_all (r := ([] : List Char)) h
  simpa using this

theorem dropWhile_eq_nil_of_all {p : Char → Bool} {l : List Char}
    (h : ∀ x ∈ l, p x) : l.dropWhile p = [] := by
  have := dropWhile_append_all (r := ([] : List Char)) h
  simpa using this

theorem matchQuoted_sound {q : Char} {r v rest : List Char}
    (h : matchQuoted q r = some (v, rest)) : q :: r = v ++ rest := by
  unfold matchQuoted at h
  split at h
  · next c2 rest2 hd =>
    split at h
    · exact absurd h (by simp)
    · next hnl =>
      have h1 : q :: (r.takeWhile (fun c => c ≠ q) ++ [q]) = v :=
        congrArg Prod.fst (Option.some.inj h)
      have h2 : rest2 = rest := congrArg Prod.snd (Option.some.inj h)
      have hc2 : c2 = q := by
        have h3 := dropWhile_head_false hd
        simpa using h3
      have hr : r = r.takeWhile (fun c => c ≠ q) ++ (c2 :: rest2) := by
        conv_lhs => rw [← List.takeWhile_append_dropWhile (p := fun c => c ≠ q) (l := r)]
        rw [hd]
      rw [hc2] at hr
      rw [← h1, ← h2, List.cons_append, List.append_assoc, List.singleton_append]
      exact congrArg (q :: ·) hr
  · exact absurd h (by simp)

theorem matchPVal_sound {r v rest : List Char}
    (h : matchPVal r = some (v, rest)) : r = v ++ rest := by
  unfold matchPVal at h
  split at h
  · next r2 => exact matchQuoted_sound h
  · next r2 => exact matchQuoted_sound h
  · next =>
    split at h
    · simp at h
    · simp only [Option.some.injEq, Prod.mk.injEq] at h
      obtain ⟨h1, h2⟩ := h
      rw [← h1, ← h2]
      exact (List.takeWhile_append_dropWhile (p := isWordChar) (l := r)).symm

theorem matchKV_sound {s n v rest : List Char}
    (h : matchKV s = some (n, v, rest)) :
    n ≠ [] ∧ s = n ++ '=' :: (v ++ rest) := by
  unfold matchKV at h
  split at h
  · simp at h
  · next n' hne =>
    split at h
    · next r2 hd =>
      split at h
      · next v' rest' hv =>
        simp only [Option.some.injEq, Prod.mk.injEq] at h
        obtain ⟨h1, h2, h3⟩ := h
        subst h1; subst h2; subst h3
        refine ⟨hne, ?_⟩
        have hsplit := (List.takeWhile_append_dropWhile (p := isWordChar) (l := s)).symm
        rw [hd] at hsplit
        rw [← matchPVal_sound hv]
        exact hsplit
      · simp at h
    · simp at h

theorem matchKV_length {s n v rest : List Char}
    (h : matchKV s = some (n, v, rest)) : rest.length < s.length := by
  obtain ⟨hne, hs⟩ := matchKV_sound h
  rw [hs]
  simp only [List.length_append, List.length_cons]
  omega

theorem ppSplitF_congr : ∀ {n m : Nat} {s : List Char},
    s.length ≤ n → s.length ≤ m → ppSplitF n s = ppSplitF m s := by
  intro n
  induction n with
  | zero =>
    intro m s hn hm
    have : s = [] := List.length_eq_zero.mp (Nat.le_zero.mp hn)
    subst this
    cases m with
    | zero => rfl
    | succ m => rfl
  | succ n ih =>
    intro m s hn hm
    cases s with
    | nil =>
      cases m with
      | zero => rfl
      | succ m => rfl
    | cons c t =>
      cases m with
      | zero => simp at hm
      | succ m =>
        simp only [ppSplitF]
        rcases hkv : matchKV (c :: t) with _ | ⟨nm, v, rest⟩
        · simp only [hkv]
          simp only [List.length_cons] at hn hm
          have h1 : t.length ≤ n := by omega
          have h2 : t.length ≤ m := by omega
          rw [ih h1 h2]
        · simp only [hkv]
          have hlt := matchKV_length hkv
          simp only [List.length_cons] at hlt hn hm
          have h1 : rest.length ≤ n := by omega
          have h2 : rest.length ≤ m := by omega
          rw [ih h1 h2]

theorem ppSplit_nil : ppSplit [] = ([], []) := rfl

theorem ppSplit_match {s nm v rest : List Char}
    (h : matchKV s = some (nm, v, rest)) :
    ppSplit s = ([], (nm, v, (ppSplit rest).1) :: (ppSplit rest).2) := by
  cases s with
  | nil => simp [matchKV, List.takeWhile] at h
  | cons c t =>
    unfold ppSplit
    simp only [List.length_cons, ppSplitF, h]
    have hlt := matchKV_length h
    simp only [List.length_cons] at hlt
    rw [ppSplitF_congr (Nat.le_of_lt_succ hlt) (le_refl _)]

theorem ppSplit_step {c : Char} {t : List Char}
    (h : matchKV (c :: t) = none) :
    ppSplit (c :: t) = (c :: (ppSplit t).1, (ppSplit t).2) := by
  unfold ppSplit
  simp only [List.length_cons, ppSplitF, h]

-- # Theorems

-- ## Characterisation of one scan step by the line's classification

theorem detectStep_plain {lines : List (List Char)} {scope : Scope}
    {st : DetectState} {i : Nat}
    (h : lineAct lines scope i = .plain) :
    detectStep lines scope st i = st := by
  unfold lineAct at h
  unfold detectStep
  simp only [offsetLine] at h
  cases hc : containsSub ENDBLOCK (List.drop scope.j (lines.getD i [])) with
  | true =>
    simp only [hc, eq_self_iff_true, if_true] at h ⊢
    cases hp : ENDBLOCK.isPrefixOf (pstrip (List.drop scope.j (lines.getD i []))) with
    | true =>
      simp only [hp, eq_self_iff_true, if_true] at h
      exact absurd h (by decide)
    | false =>
      simp only [hp, Bool.false_eq_true, if_false]
  | false =>
    simp only [hc, Bool.false_eq_true, if_false] at h ⊢
    cases hs : startblockMatch (List.drop scope.j (lines.getD i [])) with
    | some po =>
      simp only [hs] at h
      exact absurd h (by decide)
    | none =>
      simp only [hs]

theorem detectStep_closer {lines : List (List Char)} {scope : Scope}
    {st : DetectState} {i : Nat}
    (h : lineAct lines scope i = .closer) :
    detectStep lines scope st i =
      closeTop lines scope st i (pstrip (offsetLine lines scope i)) := by
  unfold lineAct at h
  unfold detectStep
  simp only [offsetLine] at h ⊢
  cases hc : containsSub ENDBLOCK (List.drop scope.j (lines.getD i [])) with
  | true =>
    simp only [hc, eq_self_iff_true, if_true] at h ⊢
    cases hp : ENDBLOCK.isPrefixOf (pstrip (List.drop scope.j (lines.getD i []))) with
    | true =>
      simp only [hp, eq_self_iff_true, if_true]
    | false =>
      simp only [hp, Bool.false_eq_true, if_false] at h
      exact absurd h (by decide)
  | false =>
    simp only [hc, Bool.false_eq_true, if_false] at h ⊢
    cases hs : startblockMatch (List.drop scope.j (lines.getD i [])) with
    | some po =>
      simp only [hs] at h
      exact absurd h (by decide)
    | none =>
      simp only [hs] at h
      exact absurd h (by decide)

theorem detectStep_opener {lines : List (List Char)} {scope : Scope}
    {st : DetectState} {i : Nat}
    (h : lineAct lines scope i = .opener) :
    detectStep lines scope st i =
      { stack := ⟨i, openerJ lines scope i, (openerNP lines scope i).1,
          (openerNP lines scope i).2, i + 1, []⟩ :: st.stack,
        rootChildren := st.rootChildren,
        lastJ := openerJ lines scope i } := by
  unfold lineAct at h
  unfold detectStep openerJ openerNP
  simp only [offsetLine] at h ⊢
  cases hc : containsSub ENDBLOCK (List.drop scope.j (lines.getD i [])) with
  | true =>
    simp only [hc, eq_self_iff_true, if_true] at h
    cases hp : ENDBLOCK.isPrefixOf (pstrip (List.drop scope.j (lines.getD i []))) with
    | true =>
      simp only [hp, eq_self_iff_true, if_true] at h
      exact absurd h (by decide)
    | false =>
      simp only [hp, Bool.false_eq_true, if_false] at h
      exact absurd h (by decide)
  | false =>
    simp only [hc, Bool.false_eq_true, if_false] at h ⊢
    cases hs : startblockMatch (List.drop scope.j (lines.getD i [])) with
    | some po =>
      simp only [hs]
      cases po with
      | some nr => rfl
      | none => rfl
    | none =>
      simp only [hs] at h
      exact absurd h (by decide)

-- ## Helper facts relating the closer test and the opening matcher

theorem isSpaceChar_isUniSpace {c : Char} (h : isSpaceChar c = true) :
    isUniSpace c = true := by
  unfold isUniSpace
  rw [h]
  simp

theorem pstrip_head {line : List Char} {c : Char} {rest : List Char}
    (hc : isUniSpace c = false)
    (h : line.dropWhile isUniSpace = c :: rest) :
    ∃ r2, pstrip line = c :: r2 := by
  unfold pstrip
  rw [h]
  rcases hd : rest.reverse.dropWhile isUniSpace with _ | ⟨d, t⟩
  · refine ⟨[], ?_⟩
    have : (c :: rest).reverse.dropWhile isUniSpace = [c] := by
      rw [List.reverse_cons, List.dropWhile_append, hd]
      simp [hc]
    rw [this]
    simp
  · refine ⟨(d :: t).reverse, ?_⟩
    have h2 : (c :: rest).reverse.dropWhile isUniSpace = (d :: t) ++ [c] := by
      rw [List.reverse_cons, List.dropWhile_append, hd]
      simp
    rw [h2]
    simp

theorem startblockMatch_some_head {s : List Char}
    {po : Option (List Char × List Char)}
    (h : startblockMatch s = some po) :
    ∃ r2, s.dropWhile isSpaceChar = '\x7b' :: r2 := by
  unfold startblockMatch at h
  split at h
  · next c1 c2 c3 r2 heq =>
    split at h
    · next hb =>
      exact ⟨c2 :: c3 :: r2, by rw [heq, hb.1]⟩
    · exact absurd h (by simp)
  · exact absurd h (by simp)

theorem lineAct_closer_head {lines : List (List Char)} {scope : Scope}
    {i : Nat} (h : lineAct lines scope i = .closer) :
    ENDBLOCK.isPrefixOf (pstrip (offsetLine lines scope i)) = true := by
  unfold lineAct at h
  simp only [offsetLine] at h ⊢
  cases hc : containsSub ENDBLOCK (List.drop scope.j (lines.getD i [])) with
  | true =>
    simp only [hc, eq_self_iff_true, if_true] at h
    cases hp : ENDBLOCK.isPrefixOf (pstrip (List.drop scope.j (lines.getD i []))) with
    | true => rfl
    | false =>
      simp only [hp, Bool.false_eq_true, if_false] at h
      exact absurd h (by decide)
  | false =>
    simp only [hc, Bool.false_eq_true, if_false] at h
    cases hs : startblockMatch (List.drop scope.j (lines.getD i [])) with
    | some po => simp only [hs] at h; exact absurd h (by decide)
    | none => simp only [hs] at h; exact absurd h (by decide)

/-- A line whose stripped form starts with the closing delimiter cannot
match the opening-delimiter pattern. -/
theorem closer_not_opener {s : List Char}
    (h : ENDBLOCK.isPrefixOf (pstrip s) = true) :
    startblockMatch s = none := by
  cases hm : startblockMatch s with
  | none => rfl
  | some po =>
    obtain ⟨r2, hr⟩ := startblockMatch_some_head hm
    have hws : ∀ x ∈ s.takeWhile isSpaceChar, isUniSpace x := fun x hx =>
      isSpaceChar_isUniSpace (takeWhile_all x hx)
    have hsplit : s = s.takeWhile isSpaceChar ++ ('\x7b' :: r2) := by
      conv_lhs => rw [← List.takeWhile_append_dropWhile (p := isSpaceChar) (l := s)]
      rw [hr]
    have hdu : s.dropWhile isUniSpace = '\x7b' :: r2 := by
      conv_lhs => rw [hsplit]
      rw [dropWhile_append_all hws]
      exact dropWhile_cons_false (by decide)
    obtain ⟨r3, hp⟩ := pstrip_head (by decide) hdu
    rw [hp] at h
    simp [ENDBLOCK, List.isPrefixOf] at h

-- ## Claim C4: stray closing delimiters are ignored

/-- C4: a standalone closing-delimiter line met while only the outer
scope is open (empty stack of open blocks) is ignored: the scan state is
unchanged (no block closed or created), the scan over the remaining lines
proceeds exactly as if the line had been skipped, and the line would not
match the opening-delimiter test either, so it is left to ordinary line
classification. -/
theorem c4_stray_closer_ignored {lines : List (List Char)} {scope : Scope}
    {st : DetectState} {i n : Nat}
    (hact : lineAct lines scope i = .closer)
    (hst : st.stack = []) :
    detectStep lines scope st i = st ∧
    detectFrom lines scope (n + 1) i st = detectFrom lines scope n (i + 1) st ∧
    startblockMatch (offsetLine lines scope i) = none := by
  have h1 : detectStep lines scope st i = st := by
    rw [detectStep_closer hact]
    unfold closeTop
    rw [hst]
  refine ⟨h1, ?_, closer_not_opener (lineAct_closer_head hact)⟩
  show detectFrom lines scope n (i + 1) (detectStep lines scope st i) =
    detectFrom lines scope n (i + 1) st
  rw [h1]

/-- Witness for C4 at a concrete input: the one-line document `\x7d\x7d\x7d x`
with the document scope and the initial scan state. -/
theorem c4_stray_closer_ignored_witness :
    lineAct [("\x7d\x7d\x7d x".toList)] (documentScope [("\x7d\x7d\x7d x".toList)]) 0 = .closer ∧
    (DetectState.mk [] [] 0).stack = [] ∧
    detectStep [("\x7d\x7d\x7d x".toList)] (documentScope [("\x7d\x7d\x7d x".toList)])
      (DetectState.mk [] [] 0) 0 = DetectState.mk [] [] 0 :=
  ⟨by decide, rfl,
    (c4_stray_closer_ignored (n := 0) (by decide) rfl).1⟩

-- ## Claim C10: which lines open a block

theorem startblockMatch_isSome_iff_shape (s : List Char) :
    (startblockMatch s).isSome = true ↔ specOpeningLineShape s := by
  constructor
  · intro h
    rcases hm : startblockMatch s with _ | po
    · rw [hm] at h; simp at h
    · clear h
      unfold startblockMatch at hm
      split at hm
      · next c1 c2 c3 r2 heq =>
        split at hm
        · next hb =>
          obtain ⟨hb1, hb2, hb3⟩ := hb
          subst hb1; subst hb2; subst hb3
          refine ⟨s.takeWhile isSpaceChar, r2, fun x hx => takeWhile_all x hx, ?_, ?_⟩
          · conv_lhs =>
              rw [← List.takeWhile_append_dropWhile (p := isSpaceChar) (l := s)]
            rw [heq]
          · rcases hp : processorMatch r2 with _ | nr
            · rw [hp] at hm
              left
              by_cases ha : r2.all isSpaceChar
              · exact fun x hx => List.all_eq_true.mp ha x hx
              · rw [if_neg ha] at hm
                exact absurd hm (by simp)
            · right
              unfold processorMatch at hp
              split at hp
              · next r3 heq2 =>
                split at hp
                · next c r4 =>
                  by_cases hf : isProcFirst c
                  · refine ⟨r2.takeWhile isSpaceChar, c, r4,
                      fun x hx => takeWhile_all x hx, hf, ?_⟩
                    conv_lhs =>
                      rw [← List.takeWhile_append_dropWhile (p := isSpaceChar) (l := r2)]
                    rw [heq2]
                  · rw [if_neg hf] at hp
                    exact absurd hp (by simp)
                · exact absurd hp (by simp)
              · exact absurd hp (by simp)
        · exact absurd hm (by simp)
      · exact absurd hm (by simp)
  · intro h
    obtain ⟨ws, rest, hws, hs, hcase⟩ := h
    have hdrop : s.dropWhile isSpaceChar = '\x7b' :: '\x7b' :: '\x7b' :: rest := by
      rw [hs, dropWhile_append_all hws]
      exact dropWhile_cons_false (by decide)
    unfold startblockMatch
    rw [hdrop]
    simp only [and_self, eq_self_iff_true, if_true]
    rcases hcase with hsp | ⟨ws2, c, tail, hws2, hc, hrest⟩
    · have hpm : processorMatch rest = none := by
        unfold processorMatch
        rw [dropWhile_eq_nil_of_all hsp]
      rw [hpm]
      rw [if_pos (List.all_eq_true.mpr hsp)]
      rfl
    · have hpm : processorMatch rest = some (c :: tail.takeWhile isProcRest,
          tail.dropWhile isProcRest) := by
        unfold processorMatch
        rw [hrest, dropWhile_append_all hws2, dropWhile_cons_false (by decide)]
        simp [hc]
      rw [hpm]
      rfl

/-- C10: on a line with no closing-delimiter token, the scan opens a new
block exactly when the offset-adjusted line is optional whitespace, the
opening delimiter, and then either an inline processor marker or only
whitespace to the end of the line; any other line opens nothing and leaves
the state unchanged (ordinary line classification takes it later). -/
theorem c10_opening_line_test {lines : List (List Char)} {scope : Scope}
    {st : DetectState} {i : Nat}
    (h : containsSub ENDBLOCK (offsetLine lines scope i) = false) :
    ((detectStep lines scope st i).stack.length = st.stack.length + 1 ↔
      specOpeningLineShape (offsetLine lines scope i)) ∧
    (¬ specOpeningLineShape (offsetLine lines scope i) →
      detectStep lines scope st i = st) := by
  cases hs : startblockMatch (offsetLine lines scope i) with
  | some po =>
    have hshape : specOpeningLineShape (offsetLine lines scope i) :=
      (startblockMatch_isSome_iff_shape _).mp (by rw [hs]; rfl)
    have hact : lineAct lines scope i = .opener := by
      unfold lineAct
      simp only [offsetLine] at h hs ⊢
      simp only [h, Bool.false_eq_true, if_false, hs]
    rw [detectStep_opener hact]
    refine ⟨⟨fun _ => hshape, fun _ => by simp⟩, fun hn => absurd hshape hn⟩
  | none =>
    have hnshape : ¬ specOpeningLineShape (offsetLine lines scope i) := by
      intro hsh
      have := (startblockMatch_isSome_iff_shape _).mpr hsh
      rw [hs] at this
      simp at this
    have hact : lineAct lines scope i = .plain := by
      unfold lineAct
      simp only [offsetLine] at h hs ⊢
      simp only [h, Bool.false_eq_true, if_false, hs]
    rw [detectStep_plain hact]
    refine ⟨⟨fun hl => absurd hl (by omega), fun hsh => absurd hsh hnshape⟩,
      fun _ => rfl⟩

/-- Witness for C10: the line `  \x7b\x7b\x7b#!div x` (no closing token)
opens a block from the empty initial state; its shape obligation follows
from the theorem's equivalence. -/
theorem c10_opening_line_test_witness :
    containsSub ENDBLOCK
      (offsetLine [("  \x7b\x7b\x7b#!div x".toList)]
        (documentScope [("  \x7b\x7b\x7b#!div x".toList)]) 0) = false ∧
    specOpeningLineShape
      (offsetLine [("  \x7b\x7b\x7b#!div x".toList)]
        (documentScope [("  \x7b\x7b\x7b#!div x".toList)]) 0) :=
  ⟨by decide,
    ((@c10_opening_line_test [("  \x7b\x7b\x7b#!div x".toList)]
        (documentScope [("  \x7b\x7b\x7b#!div x".toList)])
        (DetectState.mk [] [] 0) 0 (by decide)).1).mp
      (by decide)⟩

-- ## Claims C7 and C8: the pattern compiler

theorem collectProvider_eq {β : Type} (cs : List (Contribution β)) (i : Nat) :
    collectProvider cs i = (List.enumFrom i (cs.filter keepContribution),
      i + (cs.filter keepContribution).length) := by
  induction cs generalizing i with
  | nil => simp [collectProvider, List.enumFrom]
  | cons c rest ih =>
    unfold collectProvider
    cases hr : hasReservedGroup c.regexp with
    | true =>
      have hk : keepContribution c = false := by
        unfold keepContribution; rw [hr]; rfl
      simp only [eq_self_iff_true, if_true]
      rw [ih]
      simp [List.filter_cons, hk]
    | false =>
      simp only [hr, Bool.false_eq_true, if_false]
      cases hco : c.compilesOK with
      | false =>
        have hk : keepContribution c = false := by
          unfold keepContribution; rw [hr, hco]; rfl
        simp only [Bool.not_false, eq_self_iff_true, if_true]
        rw [ih]
        simp [List.filter_cons, hk]
      | true =>
        have hk : keepContribution c = true := by
          unfold keepContribution; rw [hr, hco]; rfl
        simp only [Bool.not_true, Bool.false_eq_true, if_false]
        rw [ih]
        simp [List.filter_cons, hk, List.enumFrom]
        omega

theorem collectGo_eq {β : Type} (provs : List (List (Contribution β))) (i : Nat) :
    collectGo provs i = List.enumFrom i ((provs.flatten).filter keepContribution) := by
  induction provs generalizing i with
  | nil => simp [collectGo, List.enumFrom]
  | cons cs rest ih =>
    unfold collectGo
    simp only [collectProvider_eq, ih]
    simp only [List.flatten_cons, List.filter_append]
    rw [List.enumFrom_append]

theorem enumFrom_fst_ge {β : Type} {l : List β} {n : Nat} {p : Nat × β}
    (h : p ∈ List.enumFrom n l) : n ≤ p.1 := by
  induction l generalizing n with
  | nil => simp [List.enumFrom] at h
  | cons a t ih =>
    simp only [List.enumFrom, List.mem_cons] at h
    rcases h with h | h
    · rw [h]
    · have := ih h
      omega

theorem lookup_enumFrom_mem {β : Type} {l : List (Contribution β)} {n k : Nat}
    {c : Contribution β} (h : (k, c) ∈ List.enumFrom n l) :
    lookupKey (List.enumFrom n l) k = some c := by
  induction l generalizing n with
  | nil => simp [List.enumFrom] at h
  | cons a t ih =>
    simp only [List.enumFrom, List.mem_cons] at h
    rcases h with h | h
    · obtain ⟨h1, h2⟩ := Prod.mk.injEq .. |>.mp h
      subst h1; subst h2
      unfold lookupKey
      rw [List.enumFrom_cons, List.find?_cons_of_pos _ (by simp)]
      rfl
    · have hge : n + 1 ≤ k := enumFrom_fst_ge (p := (k, c)) h
      unfold lookupKey
      have hne : ¬ ((fun q : Nat × Contribution β => decide (q.1 = k)) (n, a) = true) := by
        simp only [decide_eq_true_eq]
        omega
      have hfc := List.find?_cons_of_neg (p := fun q : Nat × Contribution β => decide (q.1 = k))
        (List.enumFrom (n + 1) t) (a := (n, a)) hne
      rw [List.enumFrom_cons, hfc]
      exact ih h

theorem snd_mem_of_mem_enumFrom {β : Type} {l : List β} {n k : Nat} {c : β}
    (h : (k, c) ∈ List.enumFrom n l) : c ∈ l := by
  induction l generalizing n with
  | nil => simp [List.enumFrom] at h
  | cons a t ih =>
    simp only [List.enumFrom, List.mem_cons] at h
    rcases h with h | h
    · have h2 : c = a := (Prod.mk.injEq .. |>.mp h).2
      rw [h2]
      exact List.mem_cons_self a t
    · exact List.mem_cons_of_mem a (ih h)

theorem mem_enumFrom_of_mem {β : Type} {l : List β} {c : β}
    (h : c ∈ l) : ∀ n, ∃ k, (k, c) ∈ List.enumFrom n l := by
  induction l with
  | nil => simp at h
  | cons a t ih =>
    intro n
    rcases List.mem_cons.mp h with h1 | h1
    · subst h1
      exact ⟨n, by simp [List.enumFrom]⟩
    · obtain ⟨k, hk⟩ := ih h1 (n + 1)
      exact ⟨k, by simp [List.enumFrom, hk]⟩

/-- C7: collecting provider contributions is exactly an enumeration of the
surviving ones: a contribution whose pattern uses the reserved `_i<digits>`
group namespace or does not compile standalone is skipped, every other
contribution (whatever its position or provider) is registered, in order,
under a fresh private key whose dispatch-table lookup returns its builder;
the collection step is total (one bad pattern never aborts it). -/
theorem c7_malformed_pattern_isolation {β : Type}
    (provs : List (List (Contribution β))) :
    collectContribPatterns provs =
      List.enum ((provs.flatten).filter keepContribution) ∧
    (∀ c ∈ provs.flatten,
      (hasReservedGroup c.regexp = true ∨ c.compilesOK = false) →
      ∀ k, (k, c) ∉ collectContribPatterns provs) ∧
    (∀ c ∈ provs.flatten, hasReservedGroup c.regexp = false →
      c.compilesOK = true →
      ∃ k, (k, c) ∈ collectContribPatterns provs ∧
        lookupKey (collectContribPatterns provs) k = some c) := by
  have hmain : collectContribPatterns provs =
      List.enum ((provs.flatten).filter keepContribution) := by
    unfold collectContribPatterns
    rw [collectGo_eq]
    rfl
  refine ⟨hmain, ?_, ?_⟩
  · intro c _ hbad k hmem
    rw [hmain] at hmem
    have hcf : c ∈ (provs.flatten).filter keepContribution :=
      snd_mem_of_mem_enumFrom hmem
    have hkeep := (List.mem_filter.mp hcf).2
    unfold keepContribution at hkeep
    rcases hbad with hb | hb
    · rw [hb] at hkeep; simp at hkeep
    · rw [hb] at hkeep; simp at hkeep
  · intro c hc hr hco
    have hkeep : keepContribution c = true := by
      unfold keepContribution; rw [hr, hco]; rfl
    have hcf : c ∈ (provs.flatten).filter keepContribution :=
      List.mem_filter.mpr ⟨hc, hkeep⟩
    obtain ⟨k, hk⟩ := mem_enumFrom_of_mem hcf 0
    refine ⟨k, ?_, ?_⟩
    · rw [hmain]; exact hk
    · rw [hmain]; exact lookup_enumFrom_mem hk

theorem alternation_first {β : Type} {line : List Char} {pos : Nat}
    {ka : Nat} {ca : Contribution β} :
    ∀ {l : List (Contribution β)} {n : Nat},
    (ka, ca) ∈ List.enumFrom n l →
    (∀ t ct, (t, ct) ∈ List.enumFrom n l → t < ka →
      ct.matcher line pos = none) →
    ca.matcher line pos ≠ none →
    ∃ m, alternationMatch (List.enumFrom n l) line pos = some (ka, m) ∧
      ca.matcher line pos = some m := by
  intro l
  induction l with
  | nil => intro n h; simp [List.enumFrom] at h
  | cons a t ih =>
    intro n hmem hfirst hma
    rw [List.enumFrom_cons] at hmem hfirst ⊢
    rcases List.mem_cons.mp hmem with h | h
    · obtain ⟨h1, h2⟩ := Prod.mk.injEq .. |>.mp h
      subst h1; subst h2
      rcases hm : ca.matcher line pos with _ | m
      · exact absurd hm hma
      · refine ⟨m, ?_, rfl⟩
        unfold alternationMatch
        rw [hm]
    · have hge : n + 1 ≤ ka := enumFrom_fst_ge (p := (ka, ca)) h
      have hna : a.matcher line pos = none :=
        hfirst n a (List.mem_cons_self _ _) (by omega)
      unfold alternationMatch
      rw [hna]
      exact ih h (fun u cu hu hlt =>
        hfirst u cu (List.mem_cons_of_mem _ hu) hlt) hma

/-- C8: among the surviving contributions, when two could both match at
the same position, the combined alternation matcher commits to the
earlier-registered alternative (provider order, then contribution order),
and the dispatch step hands back exactly the builder registered under that
alternative's private key. -/
theorem c8_rule_precedence {β : Type} {provs : List (List (Contribution β))}
    {line : List Char} {pos : Nat} {ka kb : Nat} {ca cb : Contribution β}
    (ha : (ka, ca) ∈ collectContribPatterns provs)
    (hb : (kb, cb) ∈ collectContribPatterns provs)
    (hab : ka < kb)
    (hma : ca.matcher line pos ≠ none)
    (hmb : cb.matcher line pos ≠ none)
    (hfirst : ∀ t ct, (t, ct) ∈ collectContribPatterns provs → t < ka →
      ct.matcher line pos = none) :
    ∃ m, alternationMatch (collectContribPatterns provs) line pos = some (ka, m) ∧
      build_node (collectContribPatterns provs)
        (alternationMatch (collectContribPatterns provs) line pos) =
        some ca.builder := by
  have hmain : collectContribPatterns provs =
      List.enumFrom 0 ((provs.flatten).filter keepContribution) := by
    unfold collectContribPatterns
    rw [collectGo_eq]
  rw [hmain] at ha hfirst ⊢
  obtain ⟨m, hm, hcam⟩ := alternation_first ha hfirst hma
  refine ⟨m, hm, ?_⟩
  rw [hm]
  simp only [build_node]
  rw [lookup_enumFrom_mem ha]
  rfl

/-- Witness for C8: two contributions from one provider, both of whose
matchers match everywhere; the first one fires. -/
theorem c8_rule_precedence_witness :
    (0, Contribution.mk [] true (fun _ _ => some 5) (10 : Nat)) ∈
      collectContribPatterns
        [[Contribution.mk [] true (fun _ _ => some 5) (10 : Nat),
          Contribution.mk [] true (fun _ _ => some 6) (20 : Nat)]] ∧
    ∃ m, alternationMatch
        (collectContribPatterns
          [[Contribution.mk [] true (fun _ _ => some 5) (10 : Nat),
            Contribution.mk [] true (fun _ _ => some 6) (20 : Nat)]]) [] 0 =
        some (0, m) ∧
      build_node
        (collectContribPatterns
          [[Contribution.mk [] true (fun _ _ => some 5) (10 : Nat),
            Contribution.mk [] true (fun _ _ => some 6) (20 : Nat)]])
        (alternationMatch
          (collectContribPatterns
            [[Contribution.mk [] true (fun _ _ => some 5) (10 : Nat),
              Contribution.mk [] true (fun _ _ => some 6) (20 : Nat)]]) [] 0) =
        some 10 := by
  have hcompute : collectContribPatterns
      [[Contribution.mk [] true (fun _ _ => some 5) (10 : Nat),
        Contribution.mk [] true (fun _ _ => some 6) (20 : Nat)]] =
      [(0, Contribution.mk [] true (fun _ _ => some 5) (10 : Nat)),
       (1, Contribution.mk [] true (fun _ _ => some 6) (20 : Nat))] := rfl
  refine ⟨by rw [hcompute]; simp, ?_⟩
  exact @c8_rule_precedence Nat
    [[Contribution.mk [] true (fun _ _ => some 5) (10 : Nat),
      Contribution.mk [] true (fun _ _ => some 6) (20 : Nat)]]
    [] 0 0 1
    (Contribution.mk [] true (fun _ _ => some 5) (10 : Nat))
    (Contribution.mk [] true (fun _ _ => some 6) (20 : Nat))
    (by rw [hcompute]; simp)
    (by rw [hcompute]; simp)
    (by omega) (by simp) (by simp)
    (fun t ct _ hlt => absurd hlt (by omega))

-- ## Claim C9: idempotent re-parse

/-- C9: for a fixed provider set, parsing the same text twice on the same
parser instance yields structurally identical trees — the second call runs
from the parser state the first call left behind (the lazily built
matcher caches) and produces the very same document node, whatever state
the instance started in. -/
theorem c9_idempotent_reparse (P : WikiProviders) (c : ParserCache)
    (text : List Char) :
    (parse P (parse P c text).2 text).1 = (parse P c text).1 := by
  rcases c with ⟨cr, cs⟩
  cases cr with
  | none =>
    cases cs with
    | none => rfl
    | some s => rfl
  | some r =>
    cases cs with
    | none => rfl
    | some s => rfl

-- ## Claims C2 and C3: counting and position invariants of the nesting scan

theorem blockCount_block (i j : Nat) (nm : List Char)
    (ps : List (List Char × PVal)) (s e : Nat) (cm : List Char)
    (ns : List WikiNode) :
    (WikiNode.block i j nm ps s e cm ns).blockCount = 1 + blockCountL ns := by
  rw [WikiNode.blockCount]
  unfold blockCountL
  rw [List.attach_map_val]

theorem blockList_block (i j : Nat) (nm : List Char)
    (ps : List (List Char × PVal)) (s e : Nat) (cm : List Char)
    (ns : List WikiNode) :
    (WikiNode.block i j nm ps s e cm ns).blockList =
      WikiNode.block i j nm ps s e cm ns :: blockListL ns := by
  rw [WikiNode.blockList]
  unfold blockListL
  rw [List.attach_map_val]

theorem blockCountL_nil : blockCountL [] = 0 := rfl

theorem blockCountL_append (l1 l2 : List WikiNode) :
    blockCountL (l1 ++ l2) = blockCountL l1 + blockCountL l2 := by
  unfold blockCountL
  rw [List.map_append, List.sum_append]

theorem blockCountL_singleton (nd : WikiNode) :
    blockCountL [nd] = nd.blockCount := by
  unfold blockCountL
  simp

theorem blockListL_nil : blockListL [] = [] := rfl

theorem blockListL_append (l1 l2 : List WikiNode) :
    blockListL (l1 ++ l2) = blockListL l1 ++ blockListL l2 := by
  unfold blockListL
  rw [List.map_append, List.flatten_append]

theorem blockListL_singleton (nd : WikiNode) :
    blockListL [nd] = nd.blockList := by
  unfold blockListL
  simp

theorem forceClosed_count (e : Nat) (b : OpenBlock) :
    (forceClosed e b).blockCount = 1 + blockCountL b.bchildren := by
  unfold forceClosed
  rw [blockCount_block]

theorem cuGo_count (e : Nat) :
    ∀ (rest : List OpenBlock) (cur : OpenBlock) (root : List WikiNode),
    blockCountL (closeUnfinishedGo e cur rest root) =
      blockCountL root + (1 + blockCountL cur.bchildren) +
        (rest.map (fun b => 1 + blockCountL b.bchildren)).sum := by
  intro rest
  induction rest with
  | nil =>
    intro cur root
    unfold closeUnfinishedGo
    rw [blockCountL_append, blockCountL_singleton, forceClosed_count]
    simp
  | cons p ps ih =>
    intro cur root
    unfold closeUnfinishedGo
    rw [ih]
    simp only [blockCountL_append, blockCountL_singleton, forceClosed_count,
      List.map_cons, List.sum_cons]
    omega

theorem cu_count (e : Nat) (stack : List OpenBlock) (root : List WikiNode) :
    blockCountL (closeUnfinished e stack root) =
      blockCountL root + (stack.map (fun b => 1 + blockCountL b.bchildren)).sum := by
  cases stack with
  | nil => simp [closeUnfinished]
  | cons b rest =>
    unfold closeUnfinished
    rw [cuGo_count]
    simp only [List.map_cons, List.sum_cons]
    omega

theorem cuGo_mem (e : Nat) :
    ∀ (rest : List OpenBlock) (cur : OpenBlock) (root : List WikiNode)
      (nd : WikiNode),
    nd ∈ blockListL (closeUnfinishedGo e cur rest root) →
    nd ∈ blockListL root ∨
      (nd.end_ = e ∧ (nd.i = cur.bi ∧ nd.start = cur.bstart ∨
        ∃ b ∈ rest, nd.i = b.bi ∧ nd.start = b.bstart)) ∨
      nd ∈ blockListL cur.bchildren ∨
      ∃ b ∈ rest, nd ∈ blockListL b.bchildren := by
  intro rest
  induction rest with
  | nil =>
    intro cur root nd hnd
    unfold closeUnfinishedGo at hnd
    rw [blockListL_append, blockListL_singleton] at hnd
    unfold forceClosed at hnd
    rw [blockList_block] at hnd
    rcases List.mem_append.mp hnd with h | h
    · exact Or.inl h
    · rcases List.mem_cons.mp h with h | h
      · refine Or.inr (Or.inl ?_)
        rw [h]
        exact ⟨rfl, Or.inl ⟨rfl, rfl⟩⟩
      · exact Or.inr (Or.inr (Or.inl h))
  | cons p ps ih =>
    intro cur root nd hnd
    unfold closeUnfinishedGo at hnd
    rcases ih _ _ _ hnd with h | h | h | h
    · exact Or.inl h
    · rcases h with ⟨he, h2⟩
      rcases h2 with ⟨hi, hs⟩ | ⟨b, hb, hib⟩
      · exact Or.inr (Or.inl ⟨he, Or.inr ⟨p, List.mem_cons_self _ _, hi, hs⟩⟩)
      · exact Or.inr (Or.inl ⟨he, Or.inr ⟨b, List.mem_cons_of_mem _ hb, hib⟩⟩)
    · simp only at h
      rw [blockListL_append, blockListL_singleton] at h
      unfold forceClosed at h
      rw [blockList_block] at h
      rcases List.mem_append.mp h with h | h
      · exact Or.inr (Or.inr (Or.inr ⟨p, List.mem_cons_self _ _, h⟩))
      · rcases List.mem_cons.mp h with h | h
        · refine Or.inr (Or.inl ?_)
          rw [h]
          exact ⟨rfl, Or.inl ⟨rfl, rfl⟩⟩
        · exact Or.inr (Or.inr (Or.inl h))
    · obtain ⟨b, hb, hb2⟩ := h
      exact Or.inr (Or.inr (Or.inr ⟨b, List.mem_cons_of_mem _ hb, hb2⟩))

theorem cu_mem (e : Nat) (stack : List OpenBlock) (root : List WikiNode)
    (nd : WikiNode) (hnd : nd ∈ blockListL (closeUnfinished e stack root)) :
    nd ∈ blockListL root ∨
      (nd.end_ = e ∧ ∃ b ∈ stack, nd.i = b.bi ∧ nd.start = b.bstart) ∨
      ∃ b ∈ stack, nd ∈ blockListL b.bchildren := by
  cases stack with
  | nil => exact Or.inl hnd
  | cons b rest =>
    unfold closeUnfinished at hnd
    rcases cuGo_mem e rest b root nd hnd with h | h | h | h
    · exact Or.inl h
    · rcases h with ⟨he, h2⟩
      rcases h2 with ⟨hi, hs⟩ | ⟨b2, hb2, hib⟩
      · exact Or.inr (Or.inl ⟨he, b, List.mem_cons_self _ _, hi, hs⟩)
      · exact Or.inr (Or.inl ⟨he, b2, List.mem_cons_of_mem _ hb2, hib⟩)
    · exact Or.inr (Or.inr ⟨b, List.mem_cons_self _ _, h⟩)
    · obtain ⟨b2, hb2, hb3⟩ := h
      exact Or.inr (Or.inr ⟨b2, List.mem_cons_of_mem _ hb2, hb3⟩)

theorem finishedOK_mono {lines : List (List Char)} {scope : Scope}
    {b1 b2 : Nat} {nd : WikiNode} (h : b1 ≤ b2)
    (hf : finishedOK lines scope b1 nd) : finishedOK lines scope b2 nd :=
  ⟨hf.1, hf.2.1, Nat.lt_of_lt_of_le hf.2.2.1 h, hf.2.2.2⟩

theorem framesOK_mono {i1 i2 : Nat} {stack : List OpenBlock} (h : i1 ≤ i2)
    (hf : framesOK i1 stack) : framesOK i2 stack := fun b hb =>
  ⟨(hf b hb).1, Nat.lt_of_lt_of_le (hf b hb).2 h⟩

theorem stateBlocks_root {st : DetectState} {nd : WikiNode}
    (h : nd ∈ blockListL st.rootChildren) : nd ∈ stateBlocks st :=
  List.mem_append_left _ h

theorem stateBlocks_frame {st : DetectState} {b : OpenBlock} {nd : WikiNode}
    (hb : b ∈ st.stack) (h : nd ∈ blockListL b.bchildren) :
    nd ∈ stateBlocks st :=
  List.mem_append_right _
    (List.mem_flatten.mpr ⟨blockListL b.bchildren, List.mem_map_of_mem _ hb, h⟩)

theorem deferredSBN_start (lines : List (List Char)) (scope : Scope)
    (lastJ : Nat) (b : OpenBlock) (i : Nat) :
    (deferredSBN lines scope lastJ b i).1 = b.bstart ∨
      (b.bstart < i ∧ (deferredSBN lines scope lastJ b i).1 = b.bstart + 1) := by
  unfold deferredSBN
  by_cases hdef : b.bname = [] ∧ b.bstart < i
  · rw [if_pos hdef]
    split
    · exact Or.inr ⟨hdef.2, rfl⟩
    · exact Or.inl rfl
  · rw [if_neg hdef]
    exact Or.inl rfl

theorem closedNode_end (lines : List (List Char)) (scope : Scope)
    (lastJ : Nat) (b : OpenBlock) (i : Nat) (ls : List Char) :
    (closedNode lines scope lastJ b i ls).end_ = i := rfl

theorem closedNode_blockList (lines : List (List Char)) (scope : Scope)
    (lastJ : Nat) (b : OpenBlock) (i : Nat) (ls : List Char) :
    (closedNode lines scope lastJ b i ls).blockList =
      closedNode lines scope lastJ b i ls :: blockListL b.bchildren := by
  unfold closedNode
  rw [blockList_block]

theorem closedNode_blockCount (lines : List (List Char)) (scope : Scope)
    (lastJ : Nat) (b : OpenBlock) (i : Nat) (ls : List Char) :
    (closedNode lines scope lastJ b i ls).blockCount =
      1 + blockCountL b.bchildren := by
  unfold closedNode
  rw [blockCount_block]

theorem closedNode_finished {lines : List (List Char)} {scope : Scope}
    {lastJ : Nat} {b : OpenBlock} {i : Nat} {ls : List Char}
    (hb : b.bstart = b.bi + 1 ∧ b.bi < i)
    (hact : lineAct lines scope i = .closer) :
    finishedOK lines scope (i + 1) (closedNode lines scope lastJ b i ls) := by
  refine ⟨?_, ?_, ?_, ?_⟩
  · show (deferredSBN lines scope lastJ b i).1 ≤ i
    rcases deferredSBN_start lines scope lastJ b i with h | ⟨h1, h2⟩
    · rw [h]; omega
    · rw [h2]; omega
  · show b.bi < i
    exact hb.2
  · show i < i + 1
    omega
  · exact hact

theorem opensIn_succ_opener {lines : List (List Char)} {scope : Scope}
    {i n : Nat} (h : lineAct lines scope i = .opener) :
    opensIn lines scope i (n + 1) = 1 + opensIn lines scope (i + 1) n := by
  have he : opensIn lines scope i (n + 1) =
      (if lineAct lines scope i = LAct.opener then 1 else 0) +
        opensIn lines scope (i + 1) n := rfl
  rw [he, if_pos h]

theorem opensIn_succ_other {lines : List (List Char)} {scope : Scope}
    {i n : Nat} (h : lineAct lines scope i ≠ .opener) :
    opensIn lines scope i (n + 1) = opensIn lines scope (i + 1) n := by
  have he : opensIn lines scope i (n + 1) =
      (if lineAct lines scope i = LAct.opener then 1 else 0) +
        opensIn lines scope (i + 1) n := rfl
  rw [he, if_neg h]
  omega

/-- The main invariant of the nesting scan: frames are well-positioned,
every finished block was closed by a closer line with ordered positions,
and the number of blocks accounted for grows by exactly the number of
opener lines scanned. -/
theorem detectFrom_invariant (lines : List (List Char)) (scope : Scope) :
    ∀ (n i : Nat) (st : DetectState),
    framesOK i st.stack →
    (∀ nd ∈ stateBlocks st, finishedOK lines scope i nd) →
    framesOK (i + n) (detectFrom lines scope n i st).stack ∧
    (∀ nd ∈ stateBlocks (detectFrom lines scope n i st),
      finishedOK lines scope (i + n) nd) ∧
    stackBlockCount (detectFrom lines scope n i st) =
      stackBlockCount st + opensIn lines scope i n := by
  intro n
  induction n with
  | zero =>
    intro i st hfr hfin
    exact ⟨hfr, hfin, rfl⟩
  | succ n ih =>
    intro i st hfr hfin
    have hstep : detectFrom lines scope (n + 1) i st
        = detectFrom lines scope n (i + 1) (detectStep lines scope st i) := rfl
    have hiadd : i + (n + 1) = (i + 1) + n := by omega
    rw [hstep, hiadd]
    cases hact : lineAct lines scope i with
    | opener =>
      rw [detectStep_opener hact]
      have hfr1 : framesOK (i + 1)
          (DetectState.mk
            (OpenBlock.mk i (openerJ lines scope i) (openerNP lines scope i).1
              (openerNP lines scope i).2 (i + 1) [] :: st.stack)
            st.rootChildren (openerJ lines scope i)).stack := by
        intro b hb
        rcases List.mem_cons.mp hb with h | h
        · rw [h]
          refine ⟨rfl, ?_⟩
          show i < i + 1
          omega
        · exact ⟨(hfr b h).1, Nat.lt_succ_of_lt (hfr b h).2⟩
      have hsb1 : stateBlocks
          (DetectState.mk
            (OpenBlock.mk i (openerJ lines scope i) (openerNP lines scope i).1
              (openerNP lines scope i).2 (i + 1) [] :: st.stack)
            st.rootChildren (openerJ lines scope i)) = stateBlocks st := by
        unfold stateBlocks
        simp [blockListL_nil]
      have hfin1 : ∀ nd ∈ stateBlocks
          (DetectState.mk
            (OpenBlock.mk i (openerJ lines scope i) (openerNP lines scope i).1
              (openerNP lines scope i).2 (i + 1) [] :: st.stack)
            st.rootChildren (openerJ lines scope i)),
          finishedOK lines scope (i + 1) nd := by
        rw [hsb1]
        exact fun nd hnd => finishedOK_mono (Nat.le_succ i) (hfin nd hnd)
      obtain ⟨ha, hb2, hc⟩ := ih (i + 1) _ hfr1 hfin1
      refine ⟨ha, hb2, ?_⟩
      rw [hc, opensIn_succ_opener hact]
      have hcnt : stackBlockCount
          (DetectState.mk
            (OpenBlock.mk i (openerJ lines scope i) (openerNP lines scope i).1
              (openerNP lines scope i).2 (i + 1) [] :: st.stack)
            st.rootChildren (openerJ lines scope i)) = stackBlockCount st + 1 := by
        unfold stackBlockCount
        simp [blockCountL_nil]
        omega
      rw [hcnt]
      omega
    | plain =>
      rw [detectStep_plain hact]
      obtain ⟨ha, hb2, hc⟩ := ih (i + 1) st (framesOK_mono (Nat.le_succ i) hfr)
        (fun nd hnd => finishedOK_mono (Nat.le_succ i) (hfin nd hnd))
      refine ⟨ha, hb2, ?_⟩
      rw [hc, opensIn_succ_other (by rw [hact]; intro hx; exact absurd hx (by decide))]
    | closer =>
      rw [detectStep_closer hact]
      rcases hst : st.stack with _ | ⟨b, rest⟩
      · have hct : closeTop lines scope st i (pstrip (offsetLine lines scope i)) = st := by
          unfold closeTop
          rw [hst]
        rw [hct]
        obtain ⟨ha, hb2, hc⟩ := ih (i + 1) st (framesOK_mono (Nat.le_succ i) hfr)
          (fun nd hnd => finishedOK_mono (Nat.le_succ i) (hfin nd hnd))
        refine ⟨ha, hb2, ?_⟩
        rw [hc, opensIn_succ_other (by rw [hact]; intro hx; exact absurd hx (by decide))]
      · have hbmem : b ∈ st.stack := by
          rw [hst]
          exact List.mem_cons_self _ _
        have hbfr := hfr b hbmem
        have hndfin : finishedOK lines scope (i + 1)
            (closedNode lines scope st.lastJ b i
              (pstrip (offsetLine lines scope i))) :=
          closedNode_finished hbfr hact
        have hct : closeTop lines scope st i (pstrip (offsetLine lines scope i)) =
            pushChild (closedNode lines scope st.lastJ b i
              (pstrip (offsetLine lines scope i))) rest st := by
          unfold closeTop
          rw [hst]
        rw [hct]
        cases rest with
        | nil =>
          have hfr1 : framesOK (i + 1)
              (pushChild (closedNode lines scope st.lastJ b i
                (pstrip (offsetLine lines scope i))) [] st).stack := by
            unfold pushChild
            intro x hx
            simp at hx
          have hfin1 : ∀ nd ∈ stateBlocks
              (pushChild (closedNode lines scope st.lastJ b i
                (pstrip (offsetLine lines scope i))) [] st),
              finishedOK lines scope (i + 1) nd := by
            unfold pushChild stateBlocks
            intro nd hnd
            simp only [List.map_nil, List.flatten_nil, List.append_nil] at hnd
            rw [blockListL_append, blockListL_singleton,
              closedNode_blockList] at hnd
            rcases List.mem_append.mp hnd with h | h
            · exact finishedOK_mono (Nat.le_succ i) (hfin nd (stateBlocks_root h))
            · rcases List.mem_cons.mp h with h | h
              · rw [h]
                exact hndfin
              · exact finishedOK_mono (Nat.le_succ i)
                  (hfin nd (stateBlocks_frame hbmem h))
          obtain ⟨ha, hb2, hc⟩ := ih (i + 1) _ hfr1 hfin1
          refine ⟨ha, hb2, ?_⟩
          rw [hc, opensIn_succ_other (by rw [hact]; intro hx; exact absurd hx (by decide))]
          have hcnt : stackBlockCount
              (pushChild (closedNode lines scope st.lastJ b i
                (pstrip (offsetLine lines scope i))) [] st) =
              stackBlockCount st := by
            unfold pushChild stackBlockCount
            simp only [List.map_nil, List.sum_nil]
            rw [blockCountL_append, blockCountL_singleton, closedNode_blockCount,
              hst]
            simp
          rw [hcnt]
        | cons p ps =>
          have hpmem : p ∈ st.stack := by
            rw [hst]
            exact List.mem_cons_of_mem _ (List.mem_cons_self _ _)
          have hfr1 : framesOK (i + 1)
              (pushChild (closedNode lines scope st.lastJ b i
                (pstrip (offsetLine lines scope i))) (p :: ps) st).stack := by
            unfold pushChild
            intro x hx
            rcases List.mem_cons.mp hx with h | h
            · have hh := hfr p hpmem
              rw [h]
              exact ⟨hh.1, Nat.lt_succ_of_lt hh.2⟩
            · have hx2 : x ∈ st.stack := by
                rw [hst]
                exact List.mem_cons_of_mem _ (List.mem_cons_of_mem _ h)
              have hh := hfr x hx2
              exact ⟨hh.1, Nat.lt_succ_of_lt hh.2⟩
          have hfin1 : ∀ nd ∈ stateBlocks
              (pushChild (closedNode lines scope st.lastJ b i
                (pstrip (offsetLine lines scope i))) (p :: ps) st),
              finishedOK lines scope (i + 1) nd := by
            unfold pushChild stateBlocks
            intro nd hnd
            simp only [List.map_cons, List.flatten_cons] at hnd
            rcases List.mem_append.mp hnd with h | h
            · exact finishedOK_mono (Nat.le_succ i) (hfin nd (stateBlocks_root h))
            · rcases List.mem_append.mp h with h | h
              · rw [blockListL_append, blockListL_singleton,
                  closedNode_blockList] at h
                rcases List.mem_append.mp h with h | h
                · exact finishedOK_mono (Nat.le_succ i)
                    (hfin nd (stateBlocks_frame hpmem h))
                · rcases List.mem_cons.mp h with h | h
                  · rw [h]
                    exact hndfin
                  · exact finishedOK_mono (Nat.le_succ i)
                      (hfin nd (stateBlocks_frame hbmem h))
              · obtain ⟨l2, hl2, hndl⟩ := List.mem_flatten.mp h
                obtain ⟨x, hx, hxe⟩ := List.mem_map.mp hl2
                have hx2 : x ∈ st.stack := by
                  rw [hst]
                  exact List.mem_cons_of_mem _ (List.mem_cons_of_mem _ hx)
                rw [← hxe] at hndl
                exact finishedOK_mono (Nat.le_succ i)
                  (hfin nd (stateBlocks_frame hx2 hndl))
          obtain ⟨ha, hb2, hc⟩ := ih (i + 1) _ hfr1 hfin1
          refine ⟨ha, hb2, ?_⟩
          rw [hc, opensIn_succ_other (by rw [hact]; intro hx; exact absurd hx (by decide))]
          have hcnt : stackBlockCount
              (pushChild (closedNode lines scope st.lastJ b i
                (pstrip (offsetLine lines scope i))) (p :: ps) st) =
              stackBlockCount st := by
            unfold pushChild stackBlockCount
            rw [hst]
            simp only [List.map_cons, List.sum_cons]
            rw [blockCountL_append, blockCountL_singleton, closedNode_blockCount]
            simp
            omega
          rw [hcnt]

theorem detect_blocks_characterised (lines : List (List Char)) (scope : Scope) :
    blockCountL (detect_nested_blocks lines scope) =
      opensIn lines scope scope.start (scope.end_ - scope.start) ∧
    ∀ nd ∈ blockListL (detect_nested_blocks lines scope),
      nd.start ≤ scope.end_ ∧ nd.i < nd.end_ ∧ nd.start ≤ nd.end_ ∧
      (nd.end_ = scope.end_ ∨
        (nd.end_ < scope.end_ ∧ lineAct lines scope nd.end_ = LAct.closer)) := by
  by_cases hse : scope.start ≤ scope.end_
  · have hinit_fr : framesOK scope.start (DetectState.mk [] [] 0).stack := by
      intro b hb
      simp at hb
    have hinit_fin : ∀ nd ∈ stateBlocks (DetectState.mk [] [] 0),
        finishedOK lines scope scope.start nd := by
      intro nd hnd
      simp [stateBlocks, blockListL] at hnd
    obtain ⟨hfr, hfin, hcnt⟩ := detectFrom_invariant lines scope
      (scope.end_ - scope.start) scope.start (DetectState.mk [] [] 0)
      hinit_fr hinit_fin
    have hbound : scope.start + (scope.end_ - scope.start) = scope.end_ := by
      omega
    rw [hbound] at hfr hfin
    constructor
    · show blockCountL (closeUnfinished scope.end_ _ _) = _
      rw [cu_count]
      unfold stackBlockCount at hcnt
      simp only [List.map_nil, List.sum_nil, blockCountL_nil] at hcnt
      omega
    · intro nd hnd
      unfold detect_nested_blocks at hnd
      rcases cu_mem _ _ _ _ hnd with h | ⟨he, b, hb, hi, hs⟩ | ⟨b, hb, h⟩
      · have hf := hfin nd (stateBlocks_root h)
        exact ⟨by have := hf.1; have := hf.2.2.1; omega, hf.2.1, hf.1,
          Or.inr ⟨hf.2.2.1, hf.2.2.2⟩⟩
      · have hbf := hfr b hb
        refine ⟨?_, ?_, ?_, Or.inl he⟩
        · rw [hs, hbf.1]
          omega
        · rw [hi, he]
          exact hbf.2
        · rw [hs, he, hbf.1]
          omega
      · have hf := hfin nd (stateBlocks_frame hb h)
        exact ⟨by have := hf.1; have := hf.2.2.1; omega, hf.2.1, hf.1,
          Or.inr ⟨hf.2.2.1, hf.2.2.2⟩⟩
  · have hn : scope.end_ - scope.start = 0 := by omega
    have hdet : detect_nested_blocks lines scope = [] := by
      unfold detect_nested_blocks
      rw [hn]
      rfl
    rw [hdet, hn]
    exact ⟨rfl, by intro nd hnd; simp [blockListL] at hnd⟩

-- ## Claim C3: unterminated blocks are force-closed at scope end

/-- C3: the scan always completes and produces one block node per opening
line (none is dropped); a block not ended at a standalone closing line —
at whatever nesting depth — has its `end` equal to the scope's end, the
force-close applied when the scope runs out. -/
theorem c3_unterminated_block_recovery (lines : List (List Char)) (scope : Scope) :
    blockCountL (detect_nested_blocks lines scope) =
      opensIn lines scope scope.start (scope.end_ - scope.start) ∧
    ∀ nd ∈ blockListL (detect_nested_blocks lines scope),
      nd.end_ = scope.end_ ∨
        (nd.end_ < scope.end_ ∧ lineAct lines scope nd.end_ = LAct.closer) := by
  obtain ⟨h1, h2⟩ := detect_blocks_characterised lines scope
  exact ⟨h1, fun nd hnd => (h2 nd hnd).2.2.2⟩

-- ## Claim C2: balanced inputs give exactly N blocks with ordered positions

/-- C2: for a document whose opening and closing delimiter lines form `N`
matched pairs, the nesting scan produces exactly `N` block nodes, each
with `start ≤ end` and `end` strictly beyond the line holding the opening
token. -/
theorem c2_balanced_nesting (text : List Char) (N : Nat)
    (h : matchedPairs (documentLines text)
      (documentScope (documentLines text)) N) :
    blockCountL (detect_nested_blocks (documentLines text)
      (documentScope (documentLines text))) = N ∧
    ∀ nd ∈ blockListL (detect_nested_blocks (documentLines text)
      (documentScope (documentLines text))),
      nd.start ≤ nd.end_ ∧ nd.i < nd.end_ := by
  obtain ⟨h1, h2⟩ := detect_blocks_characterised (documentLines text)
    (documentScope (documentLines text))
  refine ⟨?_, fun nd hnd => ⟨(h2 nd hnd).2.2.1, (h2 nd hnd).2.1⟩⟩
  rw [h1]
  exact h.2.1

/-- Witness for C2: the `singleblock` fixture of the repository's test
suite has exactly one matched pair. -/
theorem c2_balanced_nesting_witness :
    matchedPairs
      (documentLines ("Intro:\n\x7b\x7b\x7b\nA block\n\x7d\x7d\x7d\nafter\n".toList))
      (documentScope (documentLines
        ("Intro:\n\x7b\x7b\x7b\nA block\n\x7d\x7d\x7d\nafter\n".toList))) 1 ∧
    blockCountL (detect_nested_blocks
      (documentLines ("Intro:\n\x7b\x7b\x7b\nA block\n\x7d\x7d\x7d\nafter\n".toList))
      (documentScope (documentLines
        ("Intro:\n\x7b\x7b\x7b\nA block\n\x7d\x7d\x7d\nafter\n".toList)))) = 1 :=
  ⟨⟨by decide, by decide, by decide⟩,
    (c2_balanced_nesting ("Intro:\n\x7b\x7b\x7b\nA block\n\x7d\x7d\x7d\nafter\n".toList) 1
      ⟨by decide, by decide, by decide⟩).1⟩

-- ## Claim C1: the one-line inline block form

/-- C1 counterexample: parsing the single line
`\x7b\x7b\x7b#!name key="a b" flag\x7d\x7d\x7d` (and likewise
`\x7b\x7b\x7b#!name -flag\x7d\x7d\x7d`) produces NO block node at all: a
line containing the closing token is tested for the closing form first and
never reaches the opening-delimiter test, so the claimed block with
`directive_name == "name"` does not exist. -/
theorem c1_counterexample :
    detect_nested_blocks
      (documentLines ("\x7b\x7b\x7b#!name key=\x22a b\x22 flag\x7d\x7d\x7d".toList))
      (documentScope (documentLines ("\x7b\x7b\x7b#!name key=\x22a b\x22 flag\x7d\x7d\x7d".toList))) = [] ∧
    detect_nested_blocks
      (documentLines ("\x7b\x7b\x7b#!name -flag\x7d\x7d\x7d".toList))
      (documentScope (documentLines ("\x7b\x7b\x7b#!name -flag\x7d\x7d\x7d".toList))) = [] :=
  ⟨rfl, rfl⟩

/-- C1 amended: when the opening line carries an inline processor marker
and no closing delimiter on the same line, the directive name and
arguments are taken directly from that line:
`\x7b\x7b\x7b#!name key="a b" flag` yields a block with name `name` and
params `{key: "a b", flag: True}`, and `\x7b\x7b\x7b#!name -flag` yields
params `{flag: False}`; the one-line form `\x7b\x7b\x7b#!...\x7d\x7d\x7d`
yields no block (the line is left to ordinary classification). -/
theorem c1_amended_opening_line_directives :
    detect_nested_blocks
      (documentLines ("\x7b\x7b\x7b#!name key=\x22a b\x22 flag".toList))
      (documentScope (documentLines ("\x7b\x7b\x7b#!name key=\x22a b\x22 flag".toList)))
      = [WikiNode.block 0 0 ("name".toList)
          [("key".toList, PVal.str ("a b".toList)), ("flag".toList, PVal.pb true)]
          1 1 [] []] ∧
    detect_nested_blocks
      (documentLines ("\x7b\x7b\x7b#!name -flag".toList))
      (documentScope (documentLines ("\x7b\x7b\x7b#!name -flag".toList)))
      = [WikiNode.block 0 0 ("name".toList)
          [("flag".toList, PVal.pb false)] 1 1 [] []] :=
  ⟨rfl, rfl⟩

-- ## Character classes: word characters are never whitespace

theorem uint32_le_iff {a b : UInt32} : a ≤ b ↔ a.toNat ≤ b.toNat := Iff.rfl

theorem word_char_bounds {c : Char} (h : isWordChar c = true) :
    48 ≤ c.val.toNat ∧ c.val.toNat ≤ 122 := by
  unfold isWordChar at h
  simp only [Bool.or_eq_true, Char.isAlpha, Char.isUpper, Char.isLower, Char.isDigit,
    Bool.and_eq_true, decide_eq_true_eq, ge_iff_le, uint32_le_iff, Char.ext_iff,
    UInt32.ext_iff,
    show (65:UInt32).toNat = 65 by decide, show (90:UInt32).toNat = 90 by decide,
    show (97:UInt32).toNat = 97 by decide, show (122:UInt32).toNat = 122 by decide,
    show (48:UInt32).toNat = 48 by decide, show (57:UInt32).toNat = 57 by decide,
    show ('_':Char).val.toNat = 95 by decide] at h
  omega

theorem uniSpace_not_word {c : Char} (h : isUniSpace c = true) :
    isWordChar c = false := by
  have hb : c.val.toNat < 48 ∨ 122 < c.val.toNat := by
    unfold isUniSpace isSpaceChar at h
    simp only [Bool.or_eq_true, Bool.and_eq_true, decide_eq_true_eq, Char.ext_iff,
      UInt32.ext_iff, Char.le_def, uint32_le_iff,
      show (' ':Char).val.toNat = 32 by decide, show ('\t':Char).val.toNat = 9 by decide,
      show ('\n':Char).val.toNat = 10 by decide, show ('\r':Char).val.toNat = 13 by decide,
      show ('\x0b':Char).val.toNat = 11 by decide, show ('\x0c':Char).val.toNat = 12 by decide,
      show ('\x1c':Char).val.toNat = 28 by decide, show ('\x1d':Char).val.toNat = 29 by decide,
      show ('\x1e':Char).val.toNat = 30 by decide, show ('\x1f':Char).val.toNat = 31 by decide,
      show ('\x85':Char).val.toNat = 133 by decide, show ('\xa0':Char).val.toNat = 160 by decide,
      show (' ':Char).val.toNat = 5760 by decide,
      show (' ':Char).val.toNat = 8192 by decide,
      show (' ':Char).val.toNat = 8202 by decide,
      show (' ':Char).val.toNat = 8232 by decide,
      show (' ':Char).val.toNat = 8233 by decide,
      show (' ':Char).val.toNat = 8239 by decide,
      show (' ':Char).val.toNat = 8287 by decide,
      show ('　':Char).val.toNat = 12288 by decide] at h
    omega
  cases hw : isWordChar c
  · rfl
  · exact absurd (word_char_bounds hw) (by omega)

theorem word_not_unispace {c : Char} (h : isWordChar c = true) :
    isUniSpace c = false := by
  cases hu : isUniSpace c
  · rfl
  · rw [uniSpace_not_word hu] at h
    exact absurd h (by simp)

-- ## `str.split()` ignores leading and trailing whitespace

theorem splitWSAux_all_space {v : List Char} (hv : ∀ x ∈ v, isUniSpace x) :
    ∀ acc, splitWSAux acc v = if acc = [] then [] else [acc.reverse] := by
  induction v with
  | nil => intro acc; rfl
  | cons c r ih =>
    intro acc
    have hc : isUniSpace c = true := hv c (by simp)
    have hr : ∀ x ∈ r, isUniSpace x := fun x hx => hv x (by simp [hx])
    have h0 : splitWSAux [] r = [] := by rw [ih hr []]; rfl
    rw [splitWSAux]
    simp only [hc, eq_self_iff_true, if_true, h0]

theorem splitWSAux_append_space {u v : List Char} (hv : ∀ x ∈ v, isUniSpace x) :
    ∀ acc, splitWSAux acc (u ++ v) = splitWSAux acc u := by
  induction u with
  | nil =>
    intro acc
    rw [List.nil_append, splitWSAux_all_space hv]
    rfl
  | cons c r ih =>
    intro acc
    rw [List.cons_append, splitWSAux, splitWSAux]
    by_cases hc : isUniSpace c
    · simp only [hc, eq_self_iff_true, if_true]
      by_cases ha : acc = []
      · rw [if_pos ha, if_pos ha, ih]
      · rw [if_neg ha, if_neg ha, ih]
    · rw [Bool.not_eq_true] at hc
      simp only [hc, Bool.false_eq_true, if_false]
      exact ih _

theorem splitWS_dropWhile_space (s : List Char) :
    splitWS (s.dropWhile isUniSpace) = splitWS s := by
  induction s with
  | nil => rfl
  | cons c r ih =>
    by_cases hc : isUniSpace c
    · have hd : (c :: r).dropWhile isUniSpace = r.dropWhile isUniSpace := by
        rw [List.dropWhile, hc]
      rw [hd, ih]
      show splitWSAux [] r = splitWSAux [] (c :: r)
      rw [splitWSAux]
      simp only [hc, eq_self_iff_true, if_true]
    · rw [Bool.not_eq_true] at hc
      rw [dropWhile_cons_false hc]

theorem splitWS_pstrip (s : List Char) : splitWS (pstrip s) = splitWS s := by
  unfold pstrip
  set u := s.dropWhile isUniSpace with hu
  have hsplit : u = (u.reverse.dropWhile isUniSpace).reverse ++
      (u.reverse.takeWhile isUniSpace).reverse := by
    have h1 : u.reverse.takeWhile isUniSpace ++ u.reverse.dropWhile isUniSpace
        = u.reverse :=
      List.takeWhile_append_dropWhile (p := isUniSpace) (l := u.reverse)
    have h2 := congrArg List.reverse h1
    rw [List.reverse_append, List.reverse_reverse] at h2
    exact h2.symm
  have htail : ∀ x ∈ (u.reverse.takeWhile isUniSpace).reverse, isUniSpace x := by
    intro x hx
    exact takeWhile_all x (List.mem_reverse.mp hx)
  calc splitWS (u.reverse.dropWhile isUniSpace).reverse
      = splitWSAux [] ((u.reverse.dropWhile isUniSpace).reverse ++
          (u.reverse.takeWhile isUniSpace).reverse) :=
        (splitWSAux_append_space htail []).symm
    _ = splitWS u := by rw [← hsplit]; rfl
    _ = splitWS s := splitWS_dropWhile_space s

-- ## `str.split()` on space-joined words

theorem splitWSAux_word {w : List Char} (hw : ∀ x ∈ w, isUniSpace x = false) :
    ∀ acc, acc ≠ [] ∨ w ≠ [] →
      (∀ r, splitWSAux acc (w ++ ' ' :: r) =
        (w.reverse ++ acc).reverse :: splitWSAux [] r) ∧
      splitWSAux acc w = [(w.reverse ++ acc).reverse] := by
  induction w with
  | nil =>
    intro acc hne
    rcases hne with hne | hne
    · constructor
      · intro r
        rw [List.nil_append, splitWSAux]
        have hsp : isUniSpace ' ' = true := by decide
        simp only [hsp, eq_self_iff_true, if_true, if_neg hne]
        simp
      · rw [splitWSAux, if_neg hne]
        simp
    · exact absurd rfl hne
  | cons c w ih =>
    intro acc hne
    have hc : isUniSpace c = false := hw c (by simp)
    have hw' : ∀ x ∈ w, isUniSpace x = false := fun x hx => hw x (by simp [hx])
    have hstep : ∀ r', splitWSAux acc ((c :: w) ++ r') = splitWSAux (c :: acc) (w ++ r') := by
      intro r'
      rw [List.cons_append, splitWSAux]
      simp only [hc, Bool.false_eq_true, if_false]
    have hne' : c :: acc ≠ [] ∨ w ≠ [] := Or.inl (by simp)
    have ihc := ih hw' (c :: acc) hne'
    constructor
    · intro r
      rw [hstep (' ' :: r), ihc.1 r]
      simp
    · have hstep2 : splitWSAux acc (c :: w) = splitWSAux (c :: acc) w := by
        rw [splitWSAux]
        simp only [hc, Bool.false_eq_true, if_false]
      rw [hstep2, ihc.2]
      simp

theorem splitWS_word_cons {w r : List Char} (hne : w ≠ [])
    (hw : ∀ x ∈ w, isUniSpace x = false) :
    splitWS (w ++ ' ' :: r) = w :: splitWS r := by
  have h := (splitWSAux_word hw [] (Or.inr hne)).1 r
  unfold splitWS
  rw [h]
  simp

theorem splitWS_word_single {w : List Char} (hne : w ≠ [])
    (hw : ∀ x ∈ w, isUniSpace x = false) : splitWS w = [w] := by
  have h := (splitWSAux_word hw [] (Or.inr hne)).2
  unfold splitWS
  rw [h]
  simp

theorem splitWS_cons_space {r : List Char} : splitWS (' ' :: r) = splitWS r := by
  show splitWSAux [] (' ' :: r) = splitWSAux [] r
  rw [splitWSAux]
  have hsp : isUniSpace ' ' = true := by decide
  simp only [hsp, eq_self_iff_true, if_true]

theorem chunkFlags_splitWS (chunk : List Char) :
    chunkFlags chunk = (splitWS chunk).filterMap flagBind := by
  unfold chunkFlags
  rw [splitWS_pstrip]

-- ## Behaviour of the key=value matcher on rendered tokens

theorem matchKV_nonword_head {c : Char} {t : List Char}
    (hc : isWordChar c = false) : matchKV (c :: t) = none := by
  unfold matchKV
  rw [takeWhile_cons_false hc]

theorem matchKV_word_none {w rest : List Char} (hne : w ≠ [])
    (hw : ∀ x ∈ w, isWordChar x)
    (hrest : rest = [] ∨ ∃ u, rest = ' ' :: u) :
    matchKV (w ++ rest) = none := by
  have ht : (w ++ rest).takeWhile isWordChar = w := by
    rcases hrest with h | ⟨u, h⟩
    · subst h
      rw [List.append_nil]
      exact takeWhile_eq_self_of_all hw
    · subst h
      rw [takeWhile_append_all hw, takeWhile_cons_false (by decide)]
      exact List.append_nil w
  have hd : (w ++ rest).dropWhile isWordChar = rest := by
    rcases hrest with h | ⟨u, h⟩
    · subst h
      rw [List.append_nil]
      exact dropWhile_eq_nil_of_all hw
    · subst h
      rw [dropWhile_append_all hw]
      exact dropWhile_cons_false (by decide)
  obtain ⟨c, w', hcw⟩ := List.exists_cons_of_ne_nil hne
  unfold matchKV
  rw [ht, hd, hcw]
  rcases hrest with h | ⟨u, h⟩ <;> subst h
  · rfl
  · rfl

theorem ppSplit_words {w rest : List Char} (hw : ∀ x ∈ w, isWordChar x)
    (hrest : rest = [] ∨ ∃ u, rest = ' ' :: u) :
    ppSplit (w ++ rest) = (w ++ (ppSplit rest).1, (ppSplit rest).2) := by
  induction w with
  | nil => simp
  | cons c w' ih =>
    have hw' : ∀ x ∈ w', isWordChar x := fun x hx => hw x (by simp [hx])
    have hkv : matchKV ((c :: w') ++ rest) = none :=
      matchKV_word_none (by simp) hw hrest
    rw [List.cons_append] at hkv ⊢
    rw [ppSplit_step hkv, ih hw']
    simp

theorem matchKV_kvq {n v rest : List Char} {q : Char} (hn : validName n)
    (hq : q = '\x22' ∨ q = '\x27') (hv : ∀ c ∈ v, c ≠ q ∧ c ≠ '\n') :
    matchKV ((PTok.kvq n q v).render ++ rest) =
      some (n, q :: (v ++ [q]), rest) := by
  obtain ⟨hne, hword⟩ := hn
  have hshape : (PTok.kvq n q v).render ++ rest =
      n ++ '=' :: (q :: (v ++ q :: rest)) := by
    show (n ++ '=' :: q :: (v ++ [q])) ++ rest = n ++ '=' :: (q :: (v ++ q :: rest))
    simp
  rw [hshape]
  have ht : (n ++ '=' :: (q :: (v ++ q :: rest))).takeWhile isWordChar = n := by
    rw [takeWhile_append_all hword, takeWhile_cons_false (by decide)]
    exact List.append_nil n
  have hd : (n ++ '=' :: (q :: (v ++ q :: rest))).dropWhile isWordChar =
      '=' :: (q :: (v ++ q :: rest)) := by
    rw [dropWhile_append_all hword]
    exact dropWhile_cons_false (by decide)
  obtain ⟨c, n', hcn⟩ := List.exists_cons_of_ne_nil hne
  have hqv : ∀ x ∈ v, (fun c => decide (c ≠ q)) x = true := by
    intro x hx
    exact decide_eq_true ((hv x hx).1)
  have hquoted : matchQuoted q (v ++ q :: rest) = some (q :: (v ++ [q]), rest) := by
    unfold matchQuoted
    have hdq : (v ++ q :: rest).dropWhile (fun c => c ≠ q) = q :: rest := by
      rw [dropWhile_append_all hqv]
      exact dropWhile_cons_false (by simp)
    have htq : (v ++ q :: rest).takeWhile (fun c => c ≠ q) = v := by
      rw [takeWhile_append_all hqv, takeWhile_cons_false (by simp)]
      exact List.append_nil v
    rw [hdq, htq]
    have hnl : '\n' ∈ v → False := fun hm => (hv '\n' hm).2 rfl
    show (if '\n' ∈ v then none else some (q :: (v ++ [q]), rest)) =
      some (q :: (v ++ [q]), rest)
    rw [if_neg hnl]
  unfold matchKV
  rw [ht, hd, hcn]
  show (match matchPVal (q :: (v ++ q :: rest)) with
    | some (pv, r2) => some (c :: n', pv, r2)
    | none => none) = some (c :: n', q :: (v ++ [q]), rest)
  have hpv : matchPVal (q :: (v ++ q :: rest)) = some (q :: (v ++ [q]), rest) := by
    rcases hq with hq | hq <;> subst hq
    · exact hquoted
    · exact hquoted
  rw [hpv]

theorem matchPVal_word {v rest : List Char} (hv : validName v)
    (hrest : rest = [] ∨ ∃ u, rest = ' ' :: u) :
    matchPVal (v ++ rest) = some (v, rest) := by
  obtain ⟨hne, hword⟩ := hv
  have ht : (v ++ rest).takeWhile isWordChar = v := by
    rcases hrest with h | ⟨u, h⟩
    · subst h
      rw [List.append_nil]
      exact takeWhile_eq_self_of_all hword
    · subst h
      rw [takeWhile_append_all hword, takeWhile_cons_false (by decide)]
      exact List.append_nil v
  have hd : (v ++ rest).dropWhile isWordChar = rest := by
    rcases hrest with h | ⟨u, h⟩
    · subst h
      rw [List.append_nil]
      exact dropWhile_eq_nil_of_all hword
    · subst h
      rw [dropWhile_append_all hword]
      exact dropWhile_cons_false (by decide)
  obtain ⟨c, v', hcv⟩ := List.exists_cons_of_ne_nil hne
  have hcw : isWordChar c := hword c (by rw [hcv]; simp)
  unfold matchPVal
  split
  · next r2 heq =>
    exfalso
    rw [hcv, List.cons_append] at heq
    have : c = '\x22' := (List.cons.injEq _ _ _ _ ▸ heq).1
    rw [this] at hcw
    exact absurd hcw (by decide)
  · next r2 heq =>
    exfalso
    rw [hcv, List.cons_append] at heq
    have : c = '\x27' := (List.cons.injEq _ _ _ _ ▸ heq).1
    rw [this] at hcw
    exact absurd hcw (by decide)
  · next =>
    rw [ht, hd, hcv]

theorem matchKV_kvb {n v rest : List Char} (hn : validName n) (hv : validName v)
    (hrest : rest = [] ∨ ∃ u, rest = ' ' :: u) :
    matchKV ((PTok.kvb n v).render ++ rest) = some (n, v, rest) := by
  obtain ⟨hne, hword⟩ := hn
  have hshape : (PTok.kvb n v).render ++ rest = n ++ '=' :: (v ++ rest) := by
    show (n ++ '=' :: v) ++ rest = n ++ '=' :: (v ++ rest)
    simp
  rw [hshape]
  have ht : (n ++ '=' :: (v ++ rest)).takeWhile isWordChar = n := by
    rw [takeWhile_append_all hword, takeWhile_cons_false (by decide)]
    exact List.append_nil n
  have hd : (n ++ '=' :: (v ++ rest)).dropWhile isWordChar = '=' :: (v ++ rest) := by
    rw [dropWhile_append_all hword]
    exact dropWhile_cons_false (by decide)
  obtain ⟨c, n', hcn⟩ := List.exists_cons_of_ne_nil hne
  unfold matchKV
  rw [ht, hd, hcn]
  show (match matchPVal (v ++ rest) with
    | some (pv, r2) => some (c :: n', pv, r2)
    | none => none) = some (c :: n', v, rest)
  rw [matchPVal_word hv hrest]

theorem renderToks_cons_cons (t t2 : PTok) (ts : List PTok) :
    renderToks (t :: t2 :: ts) = t.render ++ ' ' :: renderToks (t2 :: ts) := rfl

theorem ppSplit_space_cons {R : List Char} :
    ppSplit (' ' :: R) = (' ' :: (ppSplit R).1, (ppSplit R).2) :=
  ppSplit_step (matchKV_nonword_head (by decide))

theorem ppSplit_renderToks : ∀ ts : List PTok, (∀ t ∈ ts, t.wf) →
    ppSplit (renderToks ts) = (ppPre ts, ppMs ts) := by
  intro ts
  induction ts with
  | nil => intro h; rfl
  | cons t ts ih =>
    intro h
    have hwt : t.wf := h t (by simp)
    have hwts : ∀ t' ∈ ts, t'.wf := fun t' ht' => h t' (by simp [ht'])
    cases ts with
    | nil =>
      show ppSplit t.render = (ppPre [t], ppMs [t])
      cases t with
      | kvq n q v =>
        obtain ⟨hn, hq, hv⟩ := hwt
        have hm := @matchKV_kvq n v [] q hn hq hv
        rw [List.append_nil] at hm
        rw [ppSplit_match hm]
        rfl
      | kvb n v =>
        obtain ⟨hn, hv⟩ := hwt
        have hm := @matchKV_kvb n v [] hn hv (Or.inl rfl)
        rw [List.append_nil] at hm
        rw [ppSplit_match hm]
        rfl
      | flg n =>
        obtain ⟨hne, hword⟩ := hwt
        have hs := @ppSplit_words n [] hword (Or.inl rfl)
        rw [List.append_nil] at hs
        rw [show (PTok.flg n).render = n from rfl, hs]
        show (n ++ (ppSplit []).1, (ppSplit []).2) = (n ++ [], [])
        rfl
      | neg n =>
        obtain ⟨hne, hword⟩ := hwt
        have hstep := ppSplit_step (c := '-') (t := n) (matchKV_nonword_head (by decide))
        rw [show (PTok.neg n).render = '-' :: n from rfl, hstep]
        have hs := @ppSplit_words n [] hword (Or.inl rfl)
        rw [List.append_nil] at hs
        rw [hs]
        show ('-' :: (n ++ (ppSplit []).1), (ppSplit []).2) = ('-' :: (n ++ []), [])
        rfl
      | dash =>
        have hstep := ppSplit_step (c := '-') (t := ([] : List Char))
          (matchKV_nonword_head (by decide))
        rw [show PTok.dash.render = ['-'] from rfl, hstep]
        rfl
    | cons t2 ts2 =>
      rw [renderToks_cons_cons]
      have hR : ppSplit (' ' :: renderToks (t2 :: ts2)) =
          (' ' :: ppPre (t2 :: ts2), ppMs (t2 :: ts2)) := by
        rw [ppSplit_space_cons, ih hwts]
      have hrest : (' ' :: renderToks (t2 :: ts2) = []) ∨
          ∃ u, ' ' :: renderToks (t2 :: ts2) = ' ' :: u :=
        Or.inr ⟨renderToks (t2 :: ts2), rfl⟩
      cases t with
      | kvq n q v =>
        obtain ⟨hn, hq, hv⟩ := hwt
        rw [ppSplit_match (matchKV_kvq hn hq hv), hR]
        rfl
      | kvb n v =>
        obtain ⟨hn, hv⟩ := hwt
        rw [ppSplit_match (matchKV_kvb hn hv hrest), hR]
        rfl
      | flg n =>
        obtain ⟨hne, hword⟩ := hwt
        rw [show (PTok.flg n).render = n from rfl, ppSplit_words hword hrest, hR]
        rfl
      | neg n =>
        obtain ⟨hne, hword⟩ := hwt
        rw [show (PTok.neg n).render ++ ' ' :: renderToks (t2 :: ts2) =
          '-' :: (n ++ ' ' :: renderToks (t2 :: ts2)) from by simp [PTok.render]]
        rw [ppSplit_step (matchKV_nonword_head (by decide)),
          ppSplit_words hword hrest, hR]
        rfl
      | dash =>
        rw [show PTok.dash.render ++ ' ' :: renderToks (t2 :: ts2) =
          '-' :: ' ' :: renderToks (t2 :: ts2) from by simp [PTok.render]]
        rw [ppSplit_step (matchKV_nonword_head (by decide)), hR]
        rfl

theorem stripQuotes_quoted {v : List Char} {q : Char}
    (hq : q = '\x22' ∨ q = '\x27') : stripQuotes (q :: (v ++ [q])) = v := by
  have hlen : (q :: (v ++ [q])).length = v.length + 2 := by simp
  have htake : (q :: (v ++ [q])).take 1 = [q] := rfl
  have hdrop : (q :: (v ++ [q])).drop ((q :: (v ++ [q])).length - 1) = [q] := by
    rw [hlen]
    show (q :: (v ++ [q])).drop (v.length + 1) = [q]
    rw [List.drop_succ_cons]
    have := List.drop_left v [q]
    rw [this]
  unfold stripQuotes
  rw [htake, hdrop, hlen]
  have hcond : ([q] ++ [q] = ['\x22', '\x22'] ∨ [q] ++ [q] = ['\x27', '\x27']) := by
    rcases hq with hq | hq <;> subst hq
    · exact Or.inl rfl
    · exact Or.inr rfl
  rw [if_pos hcond]
  show ((v ++ [q]).take (v.length + 2 - 2)) = v
  have : v.length + 2 - 2 = v.length := by omega
  rw [this]
  exact List.take_left v [q]

theorem stripQuotes_word {v : List Char} (hv : validName v) :
    stripQuotes v = v := by
  obtain ⟨hne, hword⟩ := hv
  obtain ⟨c, v', hcv⟩ := List.exists_cons_of_ne_nil hne
  have hcw : isWordChar c := hword c (by rw [hcv]; simp)
  unfold stripQuotes
  have htake : v.take 1 = [c] := by rw [hcv]; rfl
  have hcond : ¬ (v.take 1 ++ v.drop (v.length - 1) = ['\x22', '\x22'] ∨
      v.take 1 ++ v.drop (v.length - 1) = ['\x27', '\x27']) := by
    rw [htake]
    rintro (habs | habs)
    · have : c = '\x22' := by
        have := congrArg (fun l => l.head?) habs
        simpa using this
      rw [this] at hcw
      exact absurd hcw (by decide)
    · have : c = '\x27' := by
        have := congrArg (fun l => l.head?) habs
        simpa using this
      rw [this] at hcw
      exact absurd hcw (by decide)
  rw [if_neg hcond]

theorem ppMs_map_kv : ∀ ts : List PTok, (∀ t ∈ ts, t.wf) →
    (ppMs ts).map (fun m => (m.1, PVal.str (stripQuotes m.2.1))) = kvPairs ts := by
  intro ts
  induction ts with
  | nil => intro h; rfl
  | cons t ts ih =>
    intro h
    have hwt : t.wf := h t (by simp)
    have hwts : ∀ t' ∈ ts, t'.wf := fun t' ht' => h t' (by simp [ht'])
    cases t with
    | kvq n q v =>
      obtain ⟨hn, hq, hv⟩ := hwt
      show ((n, PVal.str (stripQuotes (q :: (v ++ [q])))) ::
        (ppMs ts).map (fun m => (m.1, PVal.str (stripQuotes m.2.1)))) =
        (n, PVal.str v) :: kvPairs ts
      rw [stripQuotes_quoted hq, ih hwts]
    | kvb n v =>
      obtain ⟨hn, hv⟩ := hwt
      show ((n, PVal.str (stripQuotes v)) ::
        (ppMs ts).map (fun m => (m.1, PVal.str (stripQuotes m.2.1)))) =
        (n, PVal.str v) :: kvPairs ts
      rw [stripQuotes_word hv, ih hwts]
    | flg n => exact ih hwts
    | neg n => exact ih hwts
    | dash => exact ih hwts

-- ## Flag bindings of rendered flag tokens

theorem flagBind_flg {n : List Char} (hn : validName n) :
    flagBind n = some (n, PVal.pb true) := by
  obtain ⟨hne, hword⟩ := hn
  obtain ⟨c, n', hcn⟩ := List.exists_cons_of_ne_nil hne
  subst hcn
  have hcw : isWordChar c := hword c (by simp)
  have hcd : c ≠ '-' := fun habs => absurd (habs ▸ hcw) (by decide)
  have hfm : flagMatch (c :: n') = true := by
    unfold flagMatch
    split
    · next r heq => exact absurd ((List.cons.injEq _ _ _ _ ▸ heq).1) hcd
    · next =>
      refine (Bool.and_eq_true _ _).mpr ⟨decide_eq_true (by simp), ?_⟩
      exact List.all_eq_true.mpr (fun x hx => hword x hx)
  unfold flagBind
  rw [hfm]
  simp only [if_true]
  split
  · next r heq => exact absurd ((List.cons.injEq _ _ _ _ ▸ heq).1) hcd
  · next => rfl

theorem flagBind_neg {n : List Char} (hn : validName n) :
    flagBind ('-' :: n) = some (n, PVal.pb false) := by
  obtain ⟨hne, hword⟩ := hn
  have hfm : flagMatch ('-' :: n) = true := by
    unfold flagMatch
    refine (Bool.and_eq_true _ _).mpr ⟨decide_eq_true hne, ?_⟩
    exact List.all_eq_true.mpr (fun x hx => hword x hx)
  unfold flagBind
  rw [hfm]
  simp only [if_true]
  have hlen : 0 < n.length := List.length_pos.mpr hne
  show (if n.length + 1 > 1 then some (n, PVal.pb false) else none) =
    some (n, PVal.pb false)
  rw [if_pos (by omega)]

theorem flagBind_dash : flagBind ['-'] = none := rfl

theorem chunkFlags_nil : chunkFlags [] = [] := rfl

theorem chunkFlags_cons_space {r : List Char} :
    chunkFlags (' ' :: r) = chunkFlags r := by
  rw [chunkFlags_splitWS, chunkFlags_splitWS, splitWS_cons_space]

theorem chunkFlags_chunkAfter (ts : List PTok) :
    chunkFlags (chunkAfter ts) = chunkFlags (ppPre ts) := by
  cases ts with
  | nil => rfl
  | cons t2 ts2 => exact chunkFlags_cons_space

theorem chunkFlags_word_cons {w r : List Char} (hne : w ≠ [])
    (hsafe : ∀ x ∈ w, isUniSpace x = false) :
    chunkFlags (w ++ ' ' :: r) = (w :: splitWS r).filterMap flagBind := by
  rw [chunkFlags_splitWS, splitWS_word_cons hne hsafe]

theorem chunkFlags_word_single {w : List Char} (hne : w ≠ [])
    (hsafe : ∀ x ∈ w, isUniSpace x = false) :
    chunkFlags w = [w].filterMap flagBind := by
  rw [chunkFlags_splitWS, splitWS_word_single hne hsafe]

theorem flg_render_safe {n : List Char} (hn : validName n) :
    ∀ x ∈ n, isUniSpace x = false :=
  fun x hx => word_not_unispace (hn.2 x hx)

theorem neg_render_safe {n : List Char} (hn : validName n) :
    ∀ x ∈ '-' :: n, isUniSpace x = false := by
  intro x hx
  rcases List.mem_cons.mp hx with h | h
  · subst h; decide
  · exact word_not_unispace (hn.2 x h)

-- Unfolding equations for the structural split descriptions.

theorem ppPre_kvq {n v : List Char} {q : Char} {ts : List PTok} :
    ppPre (PTok.kvq n q v :: ts) = [] := rfl

theorem ppPre_kvb {n v : List Char} {ts : List PTok} :
    ppPre (PTok.kvb n v :: ts) = [] := rfl

theorem ppPre_flg_nil {n : List Char} : ppPre [PTok.flg n] = n := by
  show n ++ [] = n
  exact List.append_nil n

theorem ppPre_flg_cons {n : List Char} {t2 : PTok} {ts2 : List PTok} :
    ppPre (PTok.flg n :: t2 :: ts2) = n ++ ' ' :: ppPre (t2 :: ts2) := rfl

theorem ppPre_neg_nil {n : List Char} : ppPre [PTok.neg n] = '-' :: n := by
  show ('-' :: n) ++ [] = '-' :: n
  exact List.append_nil _

theorem ppPre_neg_cons {n : List Char} {t2 : PTok} {ts2 : List PTok} :
    ppPre (PTok.neg n :: t2 :: ts2) = ('-' :: n) ++ ' ' :: ppPre (t2 :: ts2) := rfl

theorem ppPre_dash_nil : ppPre [PTok.dash] = ['-'] := by
  show ['-'] ++ [] = ['-']
  exact List.append_nil _

theorem ppPre_dash_cons {t2 : PTok} {ts2 : List PTok} :
    ppPre (PTok.dash :: t2 :: ts2) = ['-'] ++ ' ' :: ppPre (t2 :: ts2) := rfl

theorem ppMs_kvq {n v : List Char} {q : Char} {ts : List PTok} :
    ppMs (PTok.kvq n q v :: ts) =
      (n, q :: (v ++ [q]), chunkAfter ts) :: ppMs ts := rfl

theorem ppMs_kvb {n v : List Char} {ts : List PTok} :
    ppMs (PTok.kvb n v :: ts) = (n, v, chunkAfter ts) :: ppMs ts := rfl

theorem ppMs_flg {n : List Char} {ts : List PTok} :
    ppMs (PTok.flg n :: ts) = ppMs ts := rfl

theorem ppMs_neg {n : List Char} {ts : List PTok} :
    ppMs (PTok.neg n :: ts) = ppMs ts := rfl

theorem ppMs_dash {ts : List PTok} : ppMs (PTok.dash :: ts) = ppMs ts := rfl

theorem flagPairs_kvq {n v : List Char} {q : Char} {ts : List PTok} :
    flagPairs (PTok.kvq n q v :: ts) = flagPairs ts := rfl

theorem flagPairs_kvb {n v : List Char} {ts : List PTok} :
    flagPairs (PTok.kvb n v :: ts) = flagPairs ts := rfl

theorem flagPairs_flg {n : List Char} {ts : List PTok} :
    flagPairs (PTok.flg n :: ts) = (n, PVal.pb true) :: flagPairs ts := rfl

theorem flagPairs_neg {n : List Char} {ts : List PTok} :
    flagPairs (PTok.neg n :: ts) = (n, PVal.pb false) :: flagPairs ts := rfl

theorem flagPairs_dash {ts : List PTok} :
    flagPairs (PTok.dash :: ts) = flagPairs ts := rfl

theorem ppFlags_flatten : ∀ ts : List PTok, (∀ t ∈ ts, t.wf) →
    ((ppPre ts :: (ppMs ts).map (fun m => m.2.2)).map chunkFlags).flatten =
      flagPairs ts := by
  intro ts
  induction ts with
  | nil => intro h; rfl
  | cons t ts ih =>
    intro h
    have hwt : t.wf := h t (by simp)
    have hwts : ∀ t' ∈ ts, t'.wf := fun t' ht' => h t' (by simp [ht'])
    have ihs := ih hwts
    rw [List.map_cons, List.flatten_cons] at ihs
    cases t with
    | kvq n q v =>
      rw [ppPre_kvq, ppMs_kvq, flagPairs_kvq]
      simp only [List.map_cons, List.flatten_cons]
      rw [chunkFlags_chunkAfter]
      exact ihs
    | kvb n v =>
      rw [ppPre_kvb, ppMs_kvb, flagPairs_kvb]
      simp only [List.map_cons, List.flatten_cons]
      rw [chunkFlags_chunkAfter]
      exact ihs
    | flg n =>
      have hn : validName n := hwt
      cases ts with
      | nil =>
        rw [ppPre_flg_nil, ppMs_flg, flagPairs_flg, List.map_cons,
          List.flatten_cons]
        rw [chunkFlags_word_single hn.1 (flg_render_safe hn),
          List.filterMap_cons_some (flagBind_flg hn)]
        rfl
      | cons t2 ts2 =>
        rw [ppPre_flg_cons, ppMs_flg, flagPairs_flg, List.map_cons,
          List.flatten_cons]
        rw [chunkFlags_word_cons hn.1 (flg_render_safe hn),
          List.filterMap_cons_some (flagBind_flg hn),
          ← chunkFlags_splitWS, List.cons_append]
        rw [ihs]
    | neg n =>
      have hn : validName n := hwt
      cases ts with
      | nil =>
        rw [ppPre_neg_nil, ppMs_neg, flagPairs_neg, List.map_cons,
          List.flatten_cons]
        rw [chunkFlags_word_single (by simp) (neg_render_safe hn),
          List.filterMap_cons_some (flagBind_neg hn)]
        rfl
      | cons t2 ts2 =>
        rw [ppPre_neg_cons, ppMs_neg, flagPairs_neg, List.map_cons,
          List.flatten_cons]
        rw [chunkFlags_word_cons (by simp) (neg_render_safe hn),
          List.filterMap_cons_some (flagBind_neg hn),
          ← chunkFlags_splitWS, List.cons_append]
        rw [ihs]
    | dash =>
      cases ts with
      | nil =>
        rw [ppPre_dash_nil, ppMs_dash, flagPairs_dash, List.map_cons,
          List.flatten_cons]
        rw [chunkFlags_word_single (by simp)
            (by intro x hx; simp at hx; subst hx; decide),
          List.filterMap_cons_none flagBind_dash]
        rfl
      | cons t2 ts2 =>
        rw [ppPre_dash_cons, ppMs_dash, flagPairs_dash, List.map_cons,
          List.flatten_cons]
        rw [show (['-'] : List Char) ++ ' ' :: ppPre (t2 :: ts2) =
          ('-' : Char) :: ' ' :: ppPre (t2 :: ts2) from rfl]
        rw [show (('-' : Char) :: ' ' :: ppPre (t2 :: ts2)) =
          ['-'] ++ ' ' :: ppPre (t2 :: ts2) from rfl]
        rw [chunkFlags_word_cons (by simp)
            (by intro x hx; simp at hx; subst hx; decide),
          List.filterMap_cons_none flagBind_dash,
          ← chunkFlags_splitWS]
        exact ihs

/-- The parameter parser on a well-formed rendered token list: all the
key=value bindings in source order, then all the flag bindings in source
order. -/
theorem parse_params_renderToks : ∀ ts : List PTok, (∀ t ∈ ts, t.wf) →
    parse_processor_params (renderToks ts) = kvPairs ts ++ flagPairs ts := by
  intro ts h
  unfold parse_processor_params
  rw [ppSplit_renderToks ts h]
  show (ppMs ts).map (fun m => (m.1, PVal.str (stripQuotes m.2.1))) ++
    ((ppPre ts :: (ppMs ts).map (fun m => m.2.2)).map chunkFlags).flatten =
    kvPairs ts ++ flagPairs ts
  rw [ppMs_map_kv ts h, ppFlags_flatten ts h]

-- ## Lookup in the final dictionary

theorem plookup_gen {k : List Char} :
    ∀ (ps : List (List Char × PVal)) (init : Option PVal),
      ps.foldl (fun acc p => if p.1 = k then some p.2 else acc) init =
        match ps.foldl (fun acc p => if p.1 = k then some p.2 else acc) none with
        | some v => some v
        | none => init := by
  intro ps
  induction ps with
  | nil => intro init; rfl
  | cons p ps ih =>
    intro init
    rw [List.foldl_cons, List.foldl_cons, ih (if p.1 = k then some p.2 else init),
      ih (if p.1 = k then some p.2 else none)]
    rcases hm : ps.foldl (fun acc p => if p.1 = k then some p.2 else acc) none with _ | v
    · simp only [hm]
      by_cases hp : p.1 = k
      · rw [if_pos hp, if_pos hp]
      · rw [if_neg hp, if_neg hp]
    · simp only [hm]

theorem plookup_append (a b : List (List Char × PVal)) (k : List Char) :
    plookup (a ++ b) k =
      match plookup b k with
      | some v => some v
      | none => plookup a k := by
  unfold plookup
  rw [List.foldl_append]
  exact plookup_gen b _

theorem plookup_cons (p : List Char × PVal) (ps : List (List Char × PVal))
    (k : List Char) :
    plookup (p :: ps) k =
      match plookup ps k with
      | some v => some v
      | none => if p.1 = k then some p.2 else none := by
  unfold plookup
  rw [List.foldl_cons]
  exact plookup_gen ps _

theorem plookup_not_mem {ps : List (List Char × PVal)} {k : List Char}
    (h : k ∉ ps.map Prod.fst) : plookup ps k = none := by
  induction ps with
  | nil => rfl
  | cons p ps ih =>
    rw [plookup_cons]
    have h1 : k ∉ ps.map Prod.fst := by
      intro hm
      exact h (by rw [List.map_cons]; exact List.mem_cons_of_mem _ hm)
    have h2 : p.1 ≠ k := by
      intro hp
      apply h
      rw [List.map_cons, hp]
      exact List.mem_cons_self _ _
    rw [ih h1, if_neg h2]

theorem plookup_of_mem_nodup {ps : List (List Char × PVal)} {k : List Char}
    {v : PVal} (hnd : (ps.map Prod.fst).Nodup) (hm : (k, v) ∈ ps) :
    plookup ps k = some v := by
  induction ps with
  | nil => simp at hm
  | cons p ps ih =>
    rw [plookup_cons]
    rw [List.map_cons, List.nodup_cons] at hnd
    rcases List.mem_cons.mp hm with h | h
    · subst h
      have hnone : plookup ps k = none := plookup_not_mem hnd.1
      simp only [hnone]
      simp
    · rw [ih hnd.2 h]

-- ## The keys of the produced pairs are the bound token names

theorem pairs_keys_perm : ∀ ts : List PTok,
    ((kvPairs ts ++ flagPairs ts).map Prod.fst).Perm
      (ts.filterMap PTok.boundName) := by
  intro ts
  induction ts with
  | nil => exact List.Perm.refl _
  | cons t ts ih =>
    cases t with
    | kvq n q v =>
      rw [show kvPairs (PTok.kvq n q v :: ts) = (n, PVal.str v) :: kvPairs ts
          from rfl, flagPairs_kvq,
        List.filterMap_cons_some (show (PTok.kvq n q v).boundName = some n from rfl),
        List.cons_append, List.map_cons]
      exact ih.cons n
    | kvb n v =>
      rw [show kvPairs (PTok.kvb n v :: ts) = (n, PVal.str v) :: kvPairs ts
          from rfl, flagPairs_kvb,
        List.filterMap_cons_some (show (PTok.kvb n v).boundName = some n from rfl),
        List.cons_append, List.map_cons]
      exact ih.cons n
    | flg n =>
      rw [show kvPairs (PTok.flg n :: ts) = kvPairs ts from rfl, flagPairs_flg,
        List.filterMap_cons_some (show (PTok.flg n).boundName = some n from rfl)]
      have h1 : (kvPairs ts ++ (n, PVal.pb true) :: flagPairs ts).map Prod.fst =
          (kvPairs ts).map Prod.fst ++ n :: (flagPairs ts).map Prod.fst := by
        rw [List.map_append, List.map_cons]
      rw [h1]
      refine List.Perm.trans List.perm_middle ?_
      have h2 : ((kvPairs ts ++ flagPairs ts).map Prod.fst) =
          ((kvPairs ts).map Prod.fst ++ (flagPairs ts).map Prod.fst) :=
        List.map_append _ _ _
      rw [h2] at ih
      exact ih.cons n
    | neg n =>
      rw [show kvPairs (PTok.neg n :: ts) = kvPairs ts from rfl, flagPairs_neg,
        List.filterMap_cons_some (show (PTok.neg n).boundName = some n from rfl)]
      have h1 : (kvPairs ts ++ (n, PVal.pb false) :: flagPairs ts).map Prod.fst =
          (kvPairs ts).map Prod.fst ++ n :: (flagPairs ts).map Prod.fst := by
        rw [List.map_append, List.map_cons]
      rw [h1]
      refine List.Perm.trans List.perm_middle ?_
      have h2 : ((kvPairs ts ++ flagPairs ts).map Prod.fst) =
          ((kvPairs ts).map Prod.fst ++ (flagPairs ts).map Prod.fst) :=
        List.map_append _ _ _
      rw [h2] at ih
      exact ih.cons n
    | dash =>
      rw [show kvPairs (PTok.dash :: ts) = kvPairs ts from rfl, flagPairs_dash,
        List.filterMap_cons_none (show PTok.dash.boundName = none from rfl)]
      exact ih

theorem kvq_mem_pairs {n v : List Char} {q : Char} : ∀ {ts : List PTok},
    PTok.kvq n q v ∈ ts → (n, PVal.str v) ∈ kvPairs ts := by
  intro ts
  induction ts with
  | nil => intro hm; simp at hm
  | cons t ts ih =>
    intro hm
    rcases List.mem_cons.mp hm with h | h
    · rw [← h]
      show (n, PVal.str v) ∈ (n, PVal.str v) :: kvPairs ts
      simp
    · cases t <;> first
      | exact List.mem_cons_of_mem _ (ih h)
      | exact ih h

theorem kvb_mem_pairs {n v : List Char} : ∀ {ts : List PTok},
    PTok.kvb n v ∈ ts → (n, PVal.str v) ∈ kvPairs ts := by
  intro ts
  induction ts with
  | nil => intro hm; simp at hm
  | cons t ts ih =>
    intro hm
    rcases List.mem_cons.mp hm with h | h
    · rw [← h]
      show (n, PVal.str v) ∈ (n, PVal.str v) :: kvPairs ts
      simp
    · cases t <;> first
      | exact List.mem_cons_of_mem _ (ih h)
      | exact ih h

theorem flg_mem_pairs {n : List Char} : ∀ {ts : List PTok},
    PTok.flg n ∈ ts → (n, PVal.pb true) ∈ flagPairs ts := by
  intro ts
  induction ts with
  | nil => intro hm; simp at hm
  | cons t ts ih =>
    intro hm
    rcases List.mem_cons.mp hm with h | h
    · rw [← h]
      show (n, PVal.pb true) ∈ (n, PVal.pb true) :: flagPairs ts
      simp
    · cases t <;> first
      | exact List.mem_cons_of_mem _ (ih h)
      | exact ih h

theorem neg_mem_pairs {n : List Char} : ∀ {ts : List PTok},
    PTok.neg n ∈ ts → (n, PVal.pb false) ∈ flagPairs ts := by
  intro ts
  induction ts with
  | nil => intro hm; simp at hm
  | cons t ts ih =>
    intro hm
    rcases List.mem_cons.mp hm with h | h
    · rw [← h]
      show (n, PVal.pb false) ∈ (n, PVal.pb false) :: flagPairs ts
      simp
    · cases t <;> first
      | exact List.mem_cons_of_mem _ (ih h)
      | exact ih h

/-- C5: on a parameter string made of whitespace-separated well-formed
tokens whose bound names are pairwise distinct, `parse_processor_params`
binds each `name="quoted value"` (or `name='quoted value'`) token to the
string with the quotes removed, each `name=bareword` token to the
bareword string, each standalone bareword flag to `True`, each
`-`-prefixed flag to `False` under the name with the prefix stripped, and
a name bound by no token (in particular, a lone `-` binds nothing) is
absent from the mapping. -/
theorem c5_token_bindings (ts : List PTok) (hwf : ∀ t ∈ ts, t.wf)
    (hnd : (ts.filterMap PTok.boundName).Nodup) :
    (∀ n q v, PTok.kvq n q v ∈ ts →
      plookup (parse_processor_params (renderToks ts)) n = some (PVal.str v)) ∧
    (∀ n v, PTok.kvb n v ∈ ts →
      plookup (parse_processor_params (renderToks ts)) n = some (PVal.str v)) ∧
    (∀ n, PTok.flg n ∈ ts →
      plookup (parse_processor_params (renderToks ts)) n = some (PVal.pb true)) ∧
    (∀ n, PTok.neg n ∈ ts →
      plookup (parse_processor_params (renderToks ts)) n = some (PVal.pb false)) ∧
    (∀ n, (∀ t ∈ ts, t.boundName ≠ some n) →
      plookup (parse_processor_params (renderToks ts)) n = none) := by
  have hchar := parse_params_renderToks ts hwf
  have hkeysperm := pairs_keys_perm ts
  have hkeys : ((kvPairs ts ++ flagPairs ts).map Prod.fst).Nodup :=
    hkeysperm.nodup_iff.mpr hnd
  refine ⟨?_, ?_, ?_, ?_, ?_⟩
  · intro n q v hm
    rw [hchar]
    exact plookup_of_mem_nodup hkeys (List.mem_append_left _ (kvq_mem_pairs hm))
  · intro n v hm
    rw [hchar]
    exact plookup_of_mem_nodup hkeys (List.mem_append_left _ (kvb_mem_pairs hm))
  · intro n hm
    rw [hchar]
    exact plookup_of_mem_nodup hkeys (List.mem_append_right _ (flg_mem_pairs hm))
  · intro n hm
    rw [hchar]
    exact plookup_of_mem_nodup hkeys (List.mem_append_right _ (neg_mem_pairs hm))
  · intro n hb
    rw [hchar]
    apply plookup_not_mem
    intro hmem
    obtain ⟨t, ht, hbt⟩ := List.mem_filterMap.mp (hkeysperm.mem_iff.mp hmem)
    exact hb t ht hbt

/-- Witness for C5 at the parameter string
`key="a b" k2=v2 flag -off -`. -/
theorem c5_token_bindings_witness :
    plookup (parse_processor_params (renderToks
      [PTok.kvq (String.toList "key") '\x22' (String.toList "a b"),
       PTok.kvb (String.toList "k2") (String.toList "v2"),
       PTok.flg (String.toList "flag"),
       PTok.neg (String.toList "off"), PTok.dash]))
      (String.toList "key") = some (PVal.str (String.toList "a b")) ∧
    plookup (parse_processor_params (renderToks
      [PTok.kvq (String.toList "key") '\x22' (String.toList "a b"),
       PTok.kvb (String.toList "k2") (String.toList "v2"),
       PTok.flg (String.toList "flag"),
       PTok.neg (String.toList "off"), PTok.dash]))
      (String.toList "k2") = some (PVal.str (String.toList "v2")) ∧
    plookup (parse_processor_params (renderToks
      [PTok.kvq (String.toList "key") '\x22' (String.toList "a b"),
       PTok.kvb (String.toList "k2") (String.toList "v2"),
       PTok.flg (String.toList "flag"),
       PTok.neg (String.toList "off"), PTok.dash]))
      (String.toList "flag") = some (PVal.pb true) ∧
    plookup (parse_processor_params (renderToks
      [PTok.kvq (String.toList "key") '\x22' (String.toList "a b"),
       PTok.kvb (String.toList "k2") (String.toList "v2"),
       PTok.flg (String.toList "flag"),
       PTok.neg (String.toList "off"), PTok.dash]))
      (String.toList "off") = some (PVal.pb false) ∧
    plookup (parse_processor_params (renderToks
      [PTok.kvq (String.toList "key") '\x22' (String.toList "a b"),
       PTok.kvb (String.toList "k2") (String.toList "v2"),
       PTok.flg (String.toList "flag"),
       PTok.neg (String.toList "off"), PTok.dash]))
      (String.toList "nothere") = none := by
  refine ⟨?_, ?_, ?_, ?_, ?_⟩
  · exact (c5_token_bindings _ (by decide) (by decide)).1 _ '\x22' _ (by decide)
  · exact (c5_token_bindings _ (by decide) (by decide)).2.1 _ _ (by decide)
  · exact (c5_token_bindings _ (by decide) (by decide)).2.2.1 _ (by decide)
  · exact (c5_token_bindings _ (by decide) (by decide)).2.2.2.1 _ (by decide)
  · exact (c5_token_bindings _ (by decide) (by decide)).2.2.2.2 _ (by decide)

/-- C6 counterexample: in `flag flag="x"` the occurrence that appears
latest in the input is the key=value form binding flag to the string x,
but the parser binds flag to `True`: the boolean flag bindings are
appended after all key=value bindings, so a flag always overrides a
key=value binding of the same name regardless of source order. -/
theorem c6_last_write_counterexample :
    plookup (parse_processor_params (String.toList "flag flag=\x22x\x22"))
      (String.toList "flag") = some (PVal.pb true) ∧
    some (PVal.pb true) ≠ some (PVal.str (String.toList "x")) := by
  exact ⟨by decide, by decide⟩

/-- C6 (amended): for a well-formed rendered token list the mapping
looks names up with flag-category precedence: the last flag binding of a
name wins if there is one, and only otherwise does the last key=value
binding of that name apply; source order across the two categories is
irrelevant. -/
theorem c6_amended_flag_precedence (ts : List PTok) (hwf : ∀ t ∈ ts, t.wf)
    (n : List Char) :
    plookup (parse_processor_params (renderToks ts)) n =
      match plookup (flagPairs ts) n with
      | some v => some v
      | none => plookup (kvPairs ts) n := by
  rw [parse_params_renderToks ts hwf]
  exact plookup_append _ _ _

/-- Witness for the amended C6 at the parameter string `flag flag="x"`. -/
theorem c6_amended_flag_precedence_witness :
    plookup (parse_processor_params (renderToks
      [PTok.flg (String.toList "flag"),
       PTok.kvq (String.toList "flag") '\x22' (String.toList "x")]))
      (String.toList "flag") =
      match plookup (flagPairs
        [PTok.flg (String.toList "flag"),
         PTok.kvq (String.toList "flag") '\x22' (String.toList "x")])
        (String.toList "flag") with
      | some v => some v
      | none => plookup (kvPairs
          [PTok.flg (String.toList "flag"),
           PTok.kvq (String.toList "flag") '\x22' (String.toList "x")])
          (String.toList "flag") :=
  c6_amended_flag_precedence _ (by decide) _

end TracWiki
